import Mathlib

/-!
Verification of lmapd (a Large-scale Measurement Platform agent daemon)
against its natural-language specification.

The definitions below are shallow embeddings of the C sources:
machine integers become Nat/Int with explicit reductions mod 2^w where
C performs fixed-width arithmetic, C strings become lists of bytes or
Lean strings, intrusive linked lists become Lean lists, and functions
that touch the filesystem are modelled on explicit directory states.
Guard branches for NULL entity names are omitted: the configuration
parser rejects unnamed entities, so those branches are unreachable in a
running daemon; each such omission is noted at the definition it
concerns.
-/

/-! ## Periodic event arming (runner.c, lmapd_run)
For a periodic event whose start lies in the past, runner.c computes
  uint32_t delta = (now - event->start) / event->interval;
  tv.tv_sec = (event->start + (delta + 1) * event->interval) - now;
`delta` and `interval` are uint32, so the product `(delta + 1) * interval`
is reduced mod 2^32 before the (64-bit) time_t addition.  -/
def periodic_arm_delay (start interval now : Nat) : Int :=
  let delta : Nat := (now - start) / interval
  (start : Int) + (((delta + 1) * interval) % 2 ^ 32 : Nat) - (now : Int)

/-- Ceiling division as written in the specification: ceil(a / b). -/
def specCeilDiv (a b : Nat) : Nat :=
  (a + b - 1) / b

/-! ## Calendar event matching (data.c, lmap_event_calendar_match)

The bitset conventions follow data.c: months use bit 0 = January and the
all-months sentinel UINT16_MAX; days of month use bits 1..31 with sentinel
UINT32_MAX; days of week use bit 0 = Monday with sentinel UINT8_MAX; hours
use bits 0..23 with sentinel UINT32_MAX; minutes and seconds use bits
0..59 with sentinel UINT64_MAX. `timezone_offset` is minutes.  -/
structure CalEvent where
  months : Nat
  days_of_month : Nat
  days_of_week : Nat
  hours : Nat
  minutes : Nat
  seconds : Nat
  timezone_offset_set : Bool
  timezone_offset : Int
  deriving Repr, DecidableEq

/-- Broken-down civil time, mirroring the fields of struct tm that
lmap_event_calendar_match consults. `mon` is 0-based as in tm_mon,
`mday` is 1-based, `wday` has 0 = Sunday as in tm_wday. -/
structure Tm where
  mon : Nat
  mday : Nat
  wday : Nat
  hour : Nat
  min : Nat
  sec : Nat
  deriving Repr, DecidableEq

/-- Convert seconds since the Unix epoch to broken-down UTC civil time
(the standard era-based civil-from-days algorithm). -/
def tmFromEpoch (t : Nat) : Tm :=
  let days := t / 86400
  let secs := t % 86400
  let z := days + 719468
  let doe := z % 146097
  let yoe := (doe - doe / 1460 + doe / 36524 - doe / 146096) / 365
  let doy := doe - (365 * yoe + yoe / 4 - yoe / 100)
  let mp := (5 * doy + 2) / 153
  let d := doy - (153 * mp + 2) / 5 + 1
  let m := if mp < 10 then mp + 3 else mp - 9
  { mon := m - 1
    mday := d
    wday := (days + 4) % 7
    hour := secs / 3600
    min := secs % 3600 / 60
    sec := secs % 60 }

/-- The C code converts `now` with localtime(3); we model the host
timezone as a fixed offset `localOff` in seconds east of UTC, so
localtime(now) has the fields of the UTC break-down of now + localOff. -/
def localtm (localOff : Int) (t : Nat) : Tm :=
  tmFromEpoch ((t + localOff).toNat)

def UINT8_MAX : Nat := 255

def UINT16_MAX : Nat := 65535

def UINT32_MAX : Nat := 4294967295

def UINT64_MAX : Nat := 18446744073709551615

/-- Embedding of lmap_event_calendar_match (data.c:1404) for calendar
events. Return 0 when some non-sentinel bitset misses the corresponding
field of localtime(now), 1 on a match, exactly as the C code. Note that
the C code passes `now` to localtime(3) and never reads
event->timezone_offset. -/
def lmap_event_calendar_match (localOff : Int) (e : CalEvent) (now : Nat) : Int :=
  let tm := localtm localOff now
  let wday := if tm.wday = 0 then 6 else tm.wday - 1
  if e.months ≠ UINT16_MAX ∧ (1 <<< tm.mon) &&& e.months = 0 then 0
  else if e.days_of_month ≠ UINT32_MAX ∧ (1 <<< tm.mday) &&& e.days_of_month = 0 then 0
  else if e.days_of_week ≠ UINT8_MAX ∧ (1 <<< wday) &&& e.days_of_week = 0 then 0
  else if e.hours ≠ UINT32_MAX ∧ (1 <<< tm.hour) &&& e.hours = 0 then 0
  else if e.minutes ≠ UINT64_MAX ∧ (1 <<< tm.min) &&& e.minutes = 0 then 0
  else if e.seconds ≠ UINT64_MAX ∧ (1 <<< tm.sec) &&& e.seconds = 0 then 0
  else 1

/-- Modelled from the spec: calendar matching as the specification
describes it, where the month/day/weekday/hour/minute/second of `now`
are computed in the configured timezone_offset when present and in
local time otherwise. This definition exists only to be compared with
the embedding of the C matcher above. -/
def spec_calendar_match (localOff : Int) (e : CalEvent) (now : Nat) : Int :=
  let off := if e.timezone_offset_set then e.timezone_offset * 60 else localOff
  let tm := tmFromEpoch ((now + off).toNat)
  let wday := if tm.wday = 0 then 6 else tm.wday - 1
  if e.months ≠ UINT16_MAX ∧ (1 <<< tm.mon) &&& e.months = 0 then 0
  else if e.days_of_month ≠ UINT32_MAX ∧ (1 <<< tm.mday) &&& e.days_of_month = 0 then 0
  else if e.days_of_week ≠ UINT8_MAX ∧ (1 <<< wday) &&& e.days_of_week = 0 then 0
  else if e.hours ≠ UINT32_MAX ∧ (1 <<< tm.hour) &&& e.hours = 0 then 0
  else if e.minutes ≠ UINT64_MAX ∧ (1 <<< tm.min) &&& e.minutes = 0 then 0
  else if e.seconds ≠ UINT64_MAX ∧ (1 <<< tm.sec) &&& e.seconds = 0 then 0
  else 1

/-- The daily calendar event of the specification scenario: month, day of
month and day of week are the all-ones sentinels, hour = 3, minute = 0,
second = 0, timezone_offset = +01:00. -/
def dailyEvent : CalEvent :=
  { months := UINT16_MAX
    days_of_month := UINT32_MAX
    days_of_week := UINT8_MAX
    hours := 1 <<< 3
    minutes := 1
    seconds := 1
    timezone_offset_set := true
    timezone_offset := 60 }

/-! ## CSV codec (csv.c)

Fields are byte strings: lists of byte values. A C string contains no NUL
byte, so record fields that correspond to C strings satisfy 0 ∉ field.
The writer below is append() (csv.c:42) composed as csv_start /
csv_append / csv_end do for one record; the reader is csv_next
(csv.c:121) on an explicit input stream, where the returned stream models
the characters not yet consumed (an ungetc pushes the character back). -/
def csvQuote : Nat := 34

def csvLF : Nat := 10

/-- isspace(3) over the byte values that matter here: space and the
characters tab, newline, vertical tab, form feed, carriage return. -/
def c_isspace (c : Nat) : Bool :=
  c == 32 || c == 9 || c == 10 || c == 11 || c == 12 || c == 13

/-- The scan in append() deciding whether a field must be quoted:
the field contains the delimiter (when the delimiter is nonzero), a
double quote, or white space. -/
def need_quote (d : Nat) (f : List Nat) : Bool :=
  f.any fun c => (d != 0 && c == d) || c == csvQuote || c_isspace c

/-- The quoted-field body emitted by append(): every byte is copied and a
double quote is emitted twice. -/
def escQuote : List Nat → List Nat
  | [] => []
  | c :: cs => if c = csvQuote then c :: c :: escQuote cs else c :: escQuote cs

/-- append(file, delimiter, field) for a non-NULL field: the field raw,
or wrapped in double quotes with inner quotes doubled. -/
def csv_append_field (d : Nat) (f : List Nat) : List Nat :=
  if need_quote d f then csvQuote :: (escQuote f ++ [csvQuote]) else f

/-- One CSV record as the runner writes it: csv_start on the first field,
csv_append (a delimiter byte followed by append()) on each further field,
and csv_end (a newline). An empty record is just the newline. -/
def csv_write_record (d : Nat) : List (List Nat) → List Nat
  | [] => [csvLF]
  | f :: fs =>
    csv_append_field d f
      ++ fs.flatMap (fun g => d :: csv_append_field d g) ++ [csvLF]

/-- The csv_next loop once a first ordinary byte has been stored
(unquoted field, i ≥ 1): an unquoted delimiter ends the field (consumed),
a newline ends the field and is pushed back, anything else is stored. -/
def csv_next_unquoted (d : Nat) (acc : List Nat) : List Nat → Option (List Nat) × List Nat
  | [] => (some acc.reverse, [])
  | c :: rest =>
    if c = d then (some acc.reverse, rest)
    else if c = csvLF then (some acc.reverse, c :: rest)
    else csv_next_unquoted d (c :: acc) rest

/-- The csv_next loop in quoted mode (a leading double quote was seen).
Mirrors csv.c:130-172 with quoted = 1: a newline returns NULL when
nothing was stored (buf is still NULL) and otherwise ends the field via
ungetc; a double quote while nothing is stored merely re-runs the
`i == 0 && c == quote` branch; a later double quote peeks at the next
byte: end of stream, the delimiter or a newline end the field (consumed),
any other byte is stored (this is how "" becomes "). -/
def csv_next_quoted (d : Nat) (acc : List Nat) : List Nat → Option (List Nat) × List Nat
  | [] => (if acc = [] then none else some acc.reverse, [])
  | c :: rest =>
    if c = csvLF then
      (if acc = [] then (none, rest) else (some acc.reverse, c :: rest))
    else if acc = [] ∧ c = csvQuote then csv_next_quoted d acc rest
    else if c = csvQuote then
      match rest with
      | [] => (if acc = [] then none else some acc.reverse, [])
      | c2 :: rest2 =>
        if c2 = d then (if acc = [] then none else some acc.reverse, rest2)
        else if c2 = csvLF then (if acc = [] then none else some acc.reverse, rest2)
        else csv_next_quoted d (c2 :: acc) rest2
    else csv_next_quoted d (c :: acc) rest

/-- csv_next(file, delimiter): read one field. The result pairs the
returned field (NULL becomes none: end of record or end of stream) with
the stream that remains. The initial phase (i = 0, not quoted) breaks on
a delimiter, returns NULL on a newline, skips white space, enters quoted
mode on a double quote and otherwise stores the byte and continues
unquoted. -/
def csv_next (d : Nat) : List Nat → Option (List Nat) × List Nat
  | [] => (none, [])
  | c :: rest =>
    if c = d then (none, rest)
    else if c = csvLF then (none, rest)
    else if c_isspace c then csv_next d rest
    else if c = csvQuote then csv_next_quoted d [] rest
    else csv_next_unquoted d [c] rest

/-- Read fields with csv_next until it signals end of record (NULL). The
fuel argument only bounds the recursion; csv_next consumes at least one
byte per field, so stream length + 1 is always enough. -/
def csv_read_fields (d : Nat) : Nat → List Nat → List (List Nat)
  | 0, _ => []
  | fuel + 1, s =>
    match csv_next d s with
    | (none, _) => []
    | (some f, rest) => f :: csv_read_fields d fuel rest

/-- Read one record back: fields until the NULL return. -/
def csv_read_record (d : Nat) (s : List Nat) : List (List Nat) :=
  csv_read_fields d (s.length + 1) s

/-- A field the csv.c round trip preserves: a nonempty NUL-free byte
string with no newline whose first byte is not a double quote. -/
def goodField (f : List Nat) : Prop :=
  f ≠ [] ∧ csvLF ∉ f ∧ (0 : Nat) ∉ f ∧ f.head? ≠ some csvQuote

instance (f : List Nat) : Decidable (goodField f) := by
  unfold goodField
  infer_instance

/-- The continuation of csv_next_quoted after the closing double quote of
a quoted field with a nonempty buffer: the next byte decides, exactly as
the escape-handling branch of csv.c does. -/
def csvQuoteClose (d : Nat) (acc : List Nat) : List Nat → Option (List Nat) × List Nat
  | [] => (some acc.reverse, [])
  | c2 :: rest2 =>
    if c2 = d then (some acc.reverse, rest2)
    else if c2 = csvLF then (some acc.reverse, rest2)
    else csv_next_quoted d (c2 :: acc) rest2

/-! ## Runner state machines (runner.c)

The entities carry exactly the fields the runner callbacks read or
write. Intrusive next-pointer lists become Lean lists; pid 0 means "no
child". fnmatch(3) and fork(2) are external: glob matching enters the
model as an oracle function in the context, and each potential fork is
given its pid by a per-step function from schedule and action names
(0 modelling a failed fork). kill(2) only signals children, so
action_kill and schedule_kill do not change entity state and are
modelled as the identity where they occur. Guard branches for NULL
entity names are omitted (the parser requires names). -/
namespace Lmap

inductive ScheduleState | enabled | disabled | running | suppressed
  deriving Repr, DecidableEq

inductive ActionState | enabled | disabled | running | suppressed
  deriving Repr, DecidableEq

inductive ExecMode | sequential | parallel | pipelined
  deriving Repr, DecidableEq

inductive SuppState | enabled | disabled | active
  deriving Repr, DecidableEq

inductive EventType
  | periodic | calendar | oneOff | immediate | startup
  | controllerLost | controllerConnected
  deriving Repr, DecidableEq

structure Opt where
  id : Option String
  name : Option String
  value : Option String
  deriving Repr, DecidableEq

structure Task where
  name : String
  program : Option String
  options : List Opt
  tags : List String
  deriving Repr, DecidableEq

structure Action where
  name : String
  task : String
  options : List Opt
  destinations : List String
  tags : List String
  suppression_tags : List String
  state : ActionState
  pid : Nat
  last_invocation : Nat
  last_completion : Nat
  last_status : Int
  last_failed_completion : Nat
  last_failed_status : Int
  cnt_invocations : Nat
  cnt_suppressions : Nat
  cnt_overlaps : Nat
  cnt_failures : Nat
  cnt_active_suppressions : Nat
  deriving Repr, DecidableEq

/-- A Schedule. `stop` is the C field sched->end (end is reserved in
Lean); `stop_running` is the LMAP_SCHEDULE_FLAG_STOP_RUNNING flag bit. -/
structure Schedule where
  name : String
  start : Option String
  stop : Option String
  mode : ExecMode
  state : ScheduleState
  stop_running : Bool
  tags : List String
  suppression_tags : List String
  actions : List Action
  last_invocation : Nat
  cycle_number : Nat
  cnt_invocations : Nat
  cnt_suppressions : Nat
  cnt_overlaps : Nat
  cnt_failures : Nat
  cnt_active_suppressions : Nat
  deriving Repr, DecidableEq

/-- A Suppression. match_globs is supp->match ([] models a NULL match
list); stop is supp->end (a Lean keyword); stop_running is
LMAP_SUPP_FLAG_STOP_RUNNING_SET. -/
structure Supp where
  name : String
  start : Option String
  stop : Option String
  match_globs : List String
  stop_running : Bool
  state : SuppState
  deriving Repr, DecidableEq

/-- The fields of a firing struct event that the callbacks consult.
cycle_interval = 0 models an unset cycle interval (the C code checks
the flag and a nonzero value together). -/
structure EventStim where
  name : String
  type : EventType
  cycle_interval : Nat
  deriving Repr, DecidableEq

/-- Read-only lmap-level context of a run: the task list, the
capability task list (lmap->capabilities->tasks; [] also models a NULL
capabilities object, which the C code treats the same way), and the
fnmatch(3) oracle. -/
structure Ctx where
  tasks : List Task
  capabilities : List Task
  globMatch : String → String → Bool

/-- big_tag_match (runner.c:134): some match glob matches some tag. -/
def big_tag_match (gm : String → String → Bool) (globs tags : List String) : Bool :=
  globs.any fun m => tags.any fun t => gm m t

/-- lmap_find_task (data.c:366): first task with the given name. -/
def lmap_find_task (tasks : List Task) (name : String) : Option Task :=
  tasks.find? fun t => t.name == name

/-- The argv packing loops of action_exec: i counts filled argv slots;
each option first checks the bound and then appends its name and value
when present. none models the too-many-arguments failure. -/
def argv_fill (limit i : Nat) : List Opt → Option Nat
  | [] => some i
  | o :: rest =>
    if limit ≤ i then none
    else argv_fill limit
      (i + (if o.name.isSome then 1 else 0) + (if o.value.isSome then 1 else 0))
      rest

/-- action_exec (runner.c:150). Returns the C return value (0 skipped,
-1 failed, 1 child forked) with the updated action. t is the cached
gettimeofday second; npid the pid a successful fork would return, 0
modelling fork failure. The child branch only touches the child process
and the filesystem. The guards for a NULL action / name / task /
workspace are omitted (always present after validation and
workspace_init). -/
def action_exec (ctx : Ctx) (t npid : Nat) (a : Action) : Int × Action :=
  let a := if a.state = ActionState.suppressed
           then { a with cnt_suppressions := a.cnt_suppressions + 1 } else a
  if a.state = ActionState.disabled ∨ a.state = ActionState.suppressed then (0, a)
  else
    match lmap_find_task ctx.tasks a.task with
    | none => (-1, a)
    | some task =>
      match task.program with
      | none => (-1, a)
      | some prog =>
        if ¬ (ctx.capabilities.any fun tp => tp.program == some prog) then (-1, a)
        else if a.pid ≠ 0 then
          (-1, { a with cnt_overlaps := a.cnt_overlaps + 1 })
        else
          match argv_fill 252 0 task.options with
          | none => (-1, a)
          | some i =>
            match argv_fill 252 i a.options with
            | none => (-1, a)
            | some _ =>
              if npid = 0 then (-1, a)
              else
                (1, { a with pid := npid, last_invocation := t,
                             state := ActionState.running,
                             cnt_invocations := a.cnt_invocations + 1 })

/-- The parallel-mode loop of schedule_exec: run every action, noting
whether any action_exec returned 1. -/
def exec_actions (ctx : Ctx) (t : Nat) (pids : String → Nat) :
    List Action → List Action × Bool
  | [] => ([], false)
  | a :: rest =>
    let ra := action_exec ctx t (pids a.name) a
    let rr := exec_actions ctx t pids rest
    (ra.2 :: rr.1, (ra.1 == 1) || rr.2)

/-- schedule_exec (runner.c:317). The per-action workspace cleaning at
the top touches only the filesystem. pids supplies the fork pid for each
action by name. -/
def schedule_exec (ctx : Ctx) (t : Nat) (pids : String → Nat) (s : Schedule) :
    Schedule :=
  match s.mode with
  | ExecMode.sequential =>
    let s := { s with last_invocation := t,
                      cnt_invocations := s.cnt_invocations + 1 }
    match s.actions with
    | [] => s
    | a :: rest =>
      let ra := action_exec ctx t (pids a.name) a
      let s := { s with actions := ra.2 :: rest }
      if ra.1 = 1 then { s with state := ScheduleState.running } else s
  | ExecMode.parallel =>
    let s := { s with last_invocation := t,
                      cnt_invocations := s.cnt_invocations + 1 }
    let rr := exec_actions ctx t pids s.actions
    let s := { s with actions := rr.1 }
    if rr.2 then { s with state := ScheduleState.running } else s
  | ExecMode.pipelined =>
    { s with state := ScheduleState.disabled }

/-- The body of the schedule loop of execute_cb (runner.c:671) for one
schedule. After the start handling the loop also checks sched->end and
calls schedule_kill, which only signals children, so that branch leaves
the state unchanged and is not written out. The cycle_number is first
reset to 0 and set when the event carries a cycle interval;
lmapd_workspace_schedule_move touches only the filesystem. One-shot
event types disable the schedule after dispatch. -/
def execute_sched (ctx : Ctx) (e : EventStim) (t : Nat) (pids : String → Nat)
    (s : Schedule) : Schedule :=
  if s.state = ScheduleState.disabled then s
  else if s.start = some e.name then
    if s.state = ScheduleState.suppressed then
      { s with cnt_suppressions := s.cnt_suppressions + 1 }
    else if s.state = ScheduleState.running then
      { s with cnt_overlaps := s.cnt_overlaps + 1 }
    else
      let s := { s with cycle_number :=
        if e.cycle_interval ≠ 0 then t / e.cycle_interval * e.cycle_interval
        else 0 }
      let s := schedule_exec ctx t pids s
      if e.type = EventType.oneOff ∨ e.type = EventType.immediate
          ∨ e.type = EventType.startup then
        { s with state := ScheduleState.disabled }
      else s
  else s

/-- execute_cb (runner.c:671): every schedule is visited in turn; each
visit only touches that schedule. pidFn gives each (schedule name,
action name) pair its fork pid. -/
def execute_cb (ctx : Ctx) (e : EventStim) (t : Nat)
    (pidFn : String → String → Nat) (scheds : List Schedule) : List Schedule :=
  scheds.map fun s => execute_sched ctx e t (pidFn s.name) s

/-- The action loop body of suppression_start (runner.c:438). The
action_kill calls only signal the child. schedStop is the schedule's
STOP_RUNNING flag as it stands after the schedule update of the same
suppression_start call. -/
def supp_start_action (ctx : Ctx) (sp : Supp) (schedStop : Bool) (a : Action) :
    Action :=
  if a.state = ActionState.disabled then a
  else if big_tag_match ctx.globMatch sp.match_globs a.suppression_tags then
    let a := if a.state = ActionState.enabled
             then { a with state := ActionState.suppressed } else a
    let a := if a.state = ActionState.running ∧ ¬ schedStop ∧ sp.stop_running
             then { a with state := ActionState.suppressed } else a
    { a with cnt_active_suppressions := a.cnt_active_suppressions + 1 }
  else a

/-- The schedule loop body of suppression_start (runner.c:421):
non-disabled schedules whose suppression_tags match get suppressed (when
enabled), have STOP_RUNNING set when the suppression demands it, and
their counter incremented; then every action of the schedule is
visited. -/
def supp_start_sched_m (sp : Supp) (s : Schedule) : Schedule :=
  let s1 := if s.state = ScheduleState.enabled
            then { s with state := ScheduleState.suppressed } else s
  let s2 := if sp.stop_running then { s1 with stop_running := true } else s1
  { s2 with cnt_active_suppressions := s2.cnt_active_suppressions + 1 }

def supp_start_sched (ctx : Ctx) (sp : Supp) (s : Schedule) : Schedule :=
  if s.state = ScheduleState.disabled then s
  else
    let s3 := if big_tag_match ctx.globMatch sp.match_globs s.suppression_tags
              then supp_start_sched_m sp s
              else s
    { s3 with actions := s3.actions.map (supp_start_action ctx sp s3.stop_running) }

/-- suppression_start (runner.c:404). A suppression without match globs
returns before even setting its state (the C code checks supp->match for
NULL; the NULL-name guard is omitted). -/
def suppression_start (ctx : Ctx) (sp : Supp) (scheds : List Schedule) :
    Supp × List Schedule :=
  if sp.match_globs = [] then (sp, scheds)
  else
    let sp := { sp with state := SuppState.active }
    (sp, scheds.map (supp_start_sched ctx sp))

/-- The action loop body of suppression_end (runner.c:501). -/
def supp_end_action (ctx : Ctx) (sp : Supp) (a : Action) : Action :=
  if a.state = ActionState.disabled then a
  else if big_tag_match ctx.globMatch sp.match_globs a.suppression_tags then
    let a := if a.cnt_active_suppressions ≠ 0
             then { a with cnt_active_suppressions := a.cnt_active_suppressions - 1 }
             else a
    if a.cnt_active_suppressions = 0 ∧ a.state = ActionState.suppressed then
      { a with state := ActionState.enabled }
    else a
  else a

/-- The schedule loop body of suppression_end (runner.c:483). -/
def supp_end_sched_m (s : Schedule) : Schedule :=
  let s1 := if s.cnt_active_suppressions ≠ 0
            then { s with cnt_active_suppressions :=
                     s.cnt_active_suppressions - 1 }
            else s
  if s1.cnt_active_suppressions = 0 ∧ s1.state = ScheduleState.suppressed then
    { s1 with state := ScheduleState.enabled }
  else s1

def supp_end_sched (ctx : Ctx) (sp : Supp) (s : Schedule) : Schedule :=
  if s.state = ScheduleState.disabled then s
  else
    let s3 := if big_tag_match ctx.globMatch sp.match_globs s.suppression_tags
              then supp_end_sched_m s
              else s
    { s3 with actions := s3.actions.map (supp_end_action ctx sp) }

/-- suppression_end (runner.c:466). -/
def suppression_end (ctx : Ctx) (sp : Supp) (scheds : List Schedule) :
    Supp × List Schedule :=
  if sp.match_globs = [] then (sp, scheds)
  else
    let sp := { sp with state := SuppState.enabled }
    (sp, scheds.map (supp_end_sched ctx sp))

/-- suppress_cb (runner.c:740): walk the suppressions; per suppression
run the start handler when the event names its start Event and the
suppression is enabled, then the end handler when the event names its
end Event and the suppression is active (a firing in any other state is
only logged). The NULL-name guard is omitted. -/
def suppress_one (ctx : Ctx) (e : EventStim) (sp : Supp)
    (scheds : List Schedule) : Supp × List Schedule :=
  let r1 :=
    if sp.start = some e.name then
      if sp.state = SuppState.enabled then suppression_start ctx sp scheds
      else (sp, scheds)
    else (sp, scheds)
  if r1.1.stop = some e.name then
    if r1.1.state = SuppState.active then suppression_end ctx r1.1 r1.2
    else r1
  else r1

def suppress_cb (ctx : Ctx) (e : EventStim) :
    List Supp → List Schedule → List Supp × List Schedule
  | [], scheds => ([], scheds)
  | sp :: rest, scheds =>
    if sp.state = SuppState.disabled then
      let rr := suppress_cb ctx e rest scheds
      (sp :: rr.1, rr.2)
    else
      let r2 := suppress_one ctx e sp scheds
      let rr := suppress_cb ctx e rest r2.2
      (r2.1 :: rr.1, rr.2)

/-- The per-action completion update of lmapd_cleanup (runner.c:573):
pid cleared, state set to enabled unconditionally, completion time and
decoded status recorded (status is the WEXITSTATUS exit code, or minus
the terminating signal); a non-zero status also records the failure
fields and bumps cnt_failures. The meta-end write, the destination
moves and the workspace cleaning touch only the filesystem. -/
def reap_action (t : Nat) (status : Int) (a : Action) : Action :=
  let a := { a with pid := 0, state := ActionState.enabled,
                    last_completion := t, last_status := status }
  if status ≠ 0 then
    { a with last_failed_completion := t, last_failed_status := status,
             cnt_failures := a.cnt_failures + 1 }
  else a

/-- Find the first action with the reaped pid in a schedule's action
list, apply the completion update and, when execSucc holds (sequential
schedule, not suppressed, no STOP_RUNNING) and a successor exists, run
action_exec on the successor. none when no action carries the pid. -/
def cleanup_actions (ctx : Ctx) (t : Nat) (pids : String → Nat) (pid : Nat)
    (status : Int) (execSucc : Bool) : List Action → Option (List Action)
  | [] => none
  | a :: rest =>
    if a.pid = pid then
      match rest with
      | [] => some [reap_action t status a]
      | b :: bs =>
        if execSucc then
          some (reap_action t status a :: (action_exec ctx t (pids b.name) b).2 :: bs)
        else
          some (reap_action t status a :: b :: bs)
    else
      match cleanup_actions ctx t pids pid status execSucc rest with
      | none => none
      | some rest2 => some (a :: rest2)

/-- The per-schedule part of one lmapd_cleanup reap iteration
(runner.c:552-658) for the schedule owning the reaped pid: update the
action, start the sequential successor when permitted, and when the
schedule was running re-derive its state from the surviving actions
(suppressed when active suppressions remain), counting a schedule
failure when the cycle ended with some failed action
(lmapd_workspace_schedule_clean on full success touches only the
filesystem). none when this schedule does not own the pid. -/
def cleanup_survey (s : Schedule) : Schedule :=
  if s.state = ScheduleState.running then
    let s1 := { s with state := ScheduleState.enabled }
    let s2 := if s1.cnt_active_suppressions ≠ 0
              then { s1 with state := ScheduleState.suppressed } else s1
    let s3 := if s2.actions.any fun a => a.state == ActionState.running
              then { s2 with state := ScheduleState.running } else s2
    if s3.state ≠ ScheduleState.running then
      if s3.actions.any fun a => a.last_status ≠ 0 then
        { s3 with cnt_failures := s3.cnt_failures + 1 }
      else s3
    else s3
  else s

def lmapd_cleanup_sched (ctx : Ctx) (t : Nat) (pids : String → Nat) (pid : Nat)
    (status : Int) (s : Schedule) : Option Schedule :=
  let execSucc : Bool := s.mode == ExecMode.sequential
      && !(s.state == ScheduleState.suppressed) && !s.stop_running
  match cleanup_actions ctx t pids pid status execSucc s.actions with
  | none => none
  | some acts => some (cleanup_survey { s with actions := acts })

/-- One reaped child processed by lmapd_cleanup: find_action_by_pid and
find_schedule_by_pid locate the first schedule owning an action with the
pid; only that schedule changes. -/
def lmapd_cleanup_one (ctx : Ctx) (t : Nat) (pidFn : String → String → Nat)
    (pid : Nat) (status : Int) : List Schedule → List Schedule
  | [] => []
  | s :: rest =>
    match lmapd_cleanup_sched ctx t (pidFn s.name) pid status s with
    | some s2 => s2 :: rest
    | none => s :: lmapd_cleanup_one ctx t pidFn pid status rest

/-- The mutable lmap state the runner callbacks touch. -/
structure MState where
  schedules : List Schedule
  supps : List Supp
  deriving Repr, DecidableEq

/-- One event-loop callback activation: an Event firing (fire_cb runs
suppress_cb and then execute_cb on the same firing), or one reaped child
inside the lmapd_cleanup loop. t is the cached time of the callback;
pidFn assigns fork pids. -/
inductive Step where
  | fire (e : EventStim) (t : Nat) (pidFn : String → String → Nat)
  | reap (pid : Nat) (status : Int) (t : Nat) (pidFn : String → String → Nat)

/-- fire_cb (runner.c:793): the suppression pass, then the schedule
pass. -/
def fire_cb (ctx : Ctx) (e : EventStim) (t : Nat)
    (pidFn : String → String → Nat) (st : MState) : MState :=
  let rr := suppress_cb ctx e st.supps st.schedules
  { supps := rr.1, schedules := execute_cb ctx e t pidFn rr.2 }

/-- One callback step. A reap with pid 0 models waitpid returning "no
child": lmapd_cleanup returns without touching anything. -/
def step_run (ctx : Ctx) (st : MState) : Step → MState
  | Step.fire e t pidFn => fire_cb ctx e t pidFn st
  | Step.reap pid status t pidFn =>
    if pid = 0 then st
    else { st with
           schedules := lmapd_cleanup_one ctx t pidFn pid status st.schedules }

/-- Run a sequence of callback steps. -/
def run_steps (ctx : Ctx) (st : MState) : List Step → MState
  | [] => st
  | stp :: rest => run_steps ctx (step_run ctx st stp) rest

/-- A baseline action for concrete states (all counters zero, enabled,
no child). -/
def action0 : Action :=
  { name := "a", task := "t", options := [], destinations := [], tags := []
    suppression_tags := [], state := ActionState.enabled, pid := 0
    last_invocation := 0, last_completion := 0, last_status := 0
    last_failed_completion := 0, last_failed_status := 0
    cnt_invocations := 0, cnt_suppressions := 0, cnt_overlaps := 0
    cnt_failures := 0, cnt_active_suppressions := 0 }

/-- A baseline sequential schedule for concrete states. -/
def sched0 : Schedule :=
  { name := "s", start := some "go", stop := none
    mode := ExecMode.sequential, state := ScheduleState.enabled
    stop_running := false, tags := [], suppression_tags := []
    actions := [], last_invocation := 0, cycle_number := 0
    cnt_invocations := 0, cnt_suppressions := 0, cnt_overlaps := 0
    cnt_failures := 0, cnt_active_suppressions := 0 }

/-- A task present in the capability list of ctx0. -/
def task0 : Task :=
  { name := "t", program := some "/bin/true", options := [], tags := [] }

/-- A concrete context: one task, the same task as the only capability,
and glob matching instantiated as literal equality (fnmatch without
special characters). -/
def ctx0 : Ctx :=
  { tasks := [task0], capabilities := [task0], globMatch := fun p tg => p == tg }

/-- A suppressed-while-running action: suppressed with a live child and a
positive active-suppression count. -/
def actSup : Action :=
  { action0 with state := ActionState.suppressed, pid := 7
                 cnt_active_suppressions := 1 }

/-- A running schedule owning actSup. -/
def schedRun : Schedule :=
  { sched0 with state := ScheduleState.running, actions := [actSup] }

/-- First action of the sequential counterexample schedule: running as
pid 7. -/
def actA1 : Action :=
  { action0 with name := "a1", pid := 7, state := ActionState.running }

/-- Second action of the sequential counterexample schedule. -/
def actA2 : Action :=
  { action0 with name := "a2" }

/-- A running sequential schedule with the two actions above. -/
def schedSeq : Schedule :=
  { sched0 with state := ScheduleState.running, actions := [actA1, actA2] }

/-- The three mutually exclusive per-firing schedule counters. -/
def csum (s : Schedule) : Nat :=
  s.cnt_invocations + s.cnt_suppressions + s.cnt_overlaps

/-- Failure counter bound: failures plus a pending unit for a cycle
still running never exceed the invocations. -/
def fbound (s : Schedule) : Prop :=
  s.cnt_failures + (if s.state = ScheduleState.running then 1 else 0)
    ≤ s.cnt_invocations

/-- A firing of a Step as seen by the i-th schedule: 1 when the step is
an Event firing whose name the schedule's start references while the
schedule (in the state execute_cb actually inspects, after the
suppression pass of the same firing) is enabled, suppressed or running;
0 otherwise. -/
def relevant_firing (ctx : Ctx) (st : MState) (i : Nat) : Step → Nat
  | Step.fire e _ _ =>
    match ((suppress_cb ctx e st.supps st.schedules).2)[i]? with
    | some s =>
      if s.start = some e.name ∧ s.state ≠ ScheduleState.disabled then 1 else 0
    | none => 0
  | Step.reap _ _ _ _ => 0

/-- Number of relevant firings for the i-th schedule along a trace. -/
def count_firings (ctx : Ctx) (st : MState) (i : Nat) : List Step → Nat
  | [] => 0
  | stp :: rest =>
    relevant_firing ctx st i stp
      + count_firings ctx (step_run ctx st stp) i rest

/-- What a suppression pass may do to one schedule: counters, identity
and mode are untouched, and the state only moves between enabled and
suppressed (running and disabled are left as they are). -/
def SPreserve (s s2 : Schedule) : Prop :=
  s2.name = s.name ∧ s2.start = s.start ∧ s2.mode = s.mode
  ∧ s2.cnt_invocations = s.cnt_invocations
  ∧ s2.cnt_suppressions = s.cnt_suppressions
  ∧ s2.cnt_overlaps = s.cnt_overlaps
  ∧ s2.cnt_failures = s.cnt_failures
  ∧ (s2.state = ScheduleState.running ↔ s.state = ScheduleState.running)
  ∧ (s2.state = ScheduleState.disabled ↔ s.state = ScheduleState.disabled)

/-- What one reap may do to one schedule: per-firing counters, mode and
start are untouched and the failure bound survives. -/
def CPreserve (s s2 : Schedule) : Prop :=
  s2.cnt_invocations = s.cnt_invocations
  ∧ s2.cnt_suppressions = s.cnt_suppressions
  ∧ s2.cnt_overlaps = s.cnt_overlaps
  ∧ s2.mode = s.mode
  ∧ s2.start = s.start
  ∧ (fbound s → fbound s2)

/-- A pipelined variant of the baseline schedule. -/
def schedPipe : Schedule := { sched0 with mode := ExecMode.pipelined }

/-- A firing of the event named go at time 50, forks returning pid 3. -/
def fireGo : Step :=
  Step.fire { name := "go", type := EventType.periodic, cycle_interval := 0 }
    50 (fun _ _ => 3)

/-- Number of currently-active Suppressions whose match globs match one
of the given suppression tags. -/
def active_matching (ctx : Ctx) (supps : List Supp) (tags : List String) : Nat :=
  (supps.filter fun sp =>
    sp.state == SuppState.active
      && big_tag_match ctx.globMatch sp.match_globs tags).length

/-- The suppression-balance invariant for one schedule against the
current suppression list: a non-disabled schedule's counter equals the
number of active matching suppressions, each of its actions (when
neither it nor the schedule is disabled) likewise, and a disabled action
never owns a child. -/
def SchedInvPair (ctx : Ctx) (supps : List Supp) (s : Schedule) : Prop :=
  (s.state ≠ ScheduleState.disabled →
    s.cnt_active_suppressions = active_matching ctx supps s.suppression_tags)
  ∧ ∀ a ∈ s.actions,
      (s.state ≠ ScheduleState.disabled → a.state ≠ ActionState.disabled →
        a.cnt_active_suppressions = active_matching ctx supps a.suppression_tags)
      ∧ (a.state = ActionState.disabled → a.pid = 0)

def SchedsInv (ctx : Ctx) (supps : List Supp) (scheds : List Schedule) : Prop :=
  ∀ s ∈ scheds, SchedInvPair ctx supps s

/-- The suppression-balance invariant of a runner state. -/
def SuppInv (ctx : Ctx) (st : MState) : Prop :=
  SchedsInv ctx st.supps st.schedules

/-- Modelled from the spec: "for every Schedule/Action,
cnt_active_suppressions equals the number of currently-active
Suppressions whose match-globs match one of its suppression_tags"
(spec.md section 4.4), with no exclusion for disabled items. -/
def spec_supp_balance (ctx : Ctx) (st : MState) : Prop :=
  ∀ s ∈ st.schedules,
    s.cnt_active_suppressions = active_matching ctx st.supps s.suppression_tags
    ∧ ∀ a ∈ s.actions,
        a.cnt_active_suppressions
          = active_matching ctx st.supps a.suppression_tags

/-- A schedule carrying a suppression tag, started by Event "go". -/
def sched7 : Schedule := { sched0 with name := "s7", suppression_tags := ["red"] }

/-- A suppression whose match glob matches sched7's tag, started by
Event "supp-on". -/
def supp7 : Supp :=
  { name := "p7", start := some "supp-on", stop := none
    match_globs := ["red"], stop_running := false, state := SuppState.enabled }

/-- Initial state for the C7 counterexample trace. -/
def st7 : MState := { schedules := [sched7], supps := [supp7] }

/-- Two firings: the immediate Event "go" (which disables sched7 after
dispatch), then the suppression-start Event "supp-on". -/
def tr7 : List Step :=
  [Step.fire { name := "go", type := EventType.immediate, cycle_interval := 0 }
     10 (fun _ _ => 5),
   Step.fire { name := "supp-on", type := EventType.periodic,
               cycle_interval := 0 }
     20 (fun _ _ => 6)]

instance (ctx : Ctx) (supps : List Supp) (s : Schedule) :
    Decidable (SchedInvPair ctx supps s) := by
  unfold SchedInvPair
  infer_instance

instance (ctx : Ctx) (supps : List Supp) (scheds : List Schedule) :
    Decidable (SchedsInv ctx supps scheds) := by
  unfold SchedsInv
  infer_instance

instance (ctx : Ctx) (st : MState) : Decidable (SuppInv ctx st) := by
  unfold SuppInv
  infer_instance

instance (ctx : Ctx) (st : MState) : Decidable (spec_supp_balance ctx st) := by
  unfold spec_supp_balance
  infer_instance

end Lmap

/-! ### lmapd_workspace_schedule_move (workspace.c:301): the _incoming scan -/

/-- The character suffix ".meta". -/
def metaChars : List Char := ['.', 'm', 'e', 't', 'a']

/-- The character suffix ".data". -/
def dataChars : List Char := ['.', 'd', 'a', 't', 'a']

/-- The scan's ".meta" test: strrchr(d_name, chr46) finds the last dot and
the tail from it compares equal to ".meta"; since "meta" holds no dot,
this is exactly "the name ends with .meta". -/
def isMetaName (n : List Char) : Bool := metaChars.isSuffixOf n

/-- The mirror test for data names (not in the C code; used to state
pair-completeness). -/
def isDataName (n : List Char) : Bool := dataChars.isSuffixOf n

/-- The sdata rewrite: strcpy over the four characters after the last
dot turns "<base>.meta" into "<base>.data". -/
def dataNameOf (n : List Char) : List Char :=
  n.take (n.length - 4) ++ ['d', 'a', 't', 'a']

/-- The inverse rewrite, "<base>.data" to "<base>.meta". -/
def metaNameOf (n : List Char) : List Char :=
  n.take (n.length - 4) ++ ['m', 'e', 't', 'a']

/-- One _incoming directory entry: its name and whether fstatat reports
a regular file (false also models a failing fstatat). -/
structure FEntry where
  name : List Char
  reg : Bool
  deriving Repr, DecidableEq

/-- The readdir loop of lmapd_workspace_schedule_move (workspace.c:341).
fail is the linkat failure oracle by target name; incAll is the
directory content the fstatat calls consult (under unique entry names
the loop never revisits a pair, so the initial snapshot is faithful);
the first argument list is the remaining scan order and the last the
name contents of the destination directory. Entries starting with a dot
are skipped, as are meta entries whose own stat or whose companion
".data" stat does not report a regular file. The data name is linked
first; if that fails the loop continues with the next entry. Then the
meta name is linked; if that fails the data link is rolled back
(unlinkat on the destination) and the loop exits (break). The final
unlinkat pair on _incoming only removes the processed pair there and is
not tracked; the strdup out-of-memory break is omitted (no allocation
failure in the model). Returns the final destination contents. -/
def moveScan (fail : List Char → Bool) (incAll : List FEntry) :
    List FEntry → List (List Char) → List (List Char)
  | [], dest => dest
  | ent :: rest, dest =>
    match ent.name with
    | [] => moveScan fail incAll rest dest
    | c :: _ =>
      if c = '.' then moveScan fail incAll rest dest
      else if isMetaName ent.name then
        if ent.reg then
          match incAll.find? (fun f => f.name == dataNameOf ent.name) with
          | none => moveScan fail incAll rest dest
          | some fd =>
            if fd.reg then
              if fail (dataNameOf ent.name) then moveScan fail incAll rest dest
              else if fail ent.name then
                (dest ++ [dataNameOf ent.name]).erase (dataNameOf ent.name)
              else
                moveScan fail incAll rest
                  (dest ++ [dataNameOf ent.name] ++ [ent.name])
            else moveScan fail incAll rest dest
        else moveScan fail incAll rest dest
      else moveScan fail incAll rest dest

/-- Modelled from the spec: the same scan, but on a failed meta link the
rollback is followed by "continue with the next pair" instead of the
code's break. -/
def moveScanSpec (fail : List Char → Bool) (incAll : List FEntry) :
    List FEntry → List (List Char) → List (List Char)
  | [], dest => dest
  | ent :: rest, dest =>
    match ent.name with
    | [] => moveScanSpec fail incAll rest dest
    | c :: _ =>
      if c = '.' then moveScanSpec fail incAll rest dest
      else if isMetaName ent.name then
        if ent.reg then
          match incAll.find? (fun f => f.name == dataNameOf ent.name) with
          | none => moveScanSpec fail incAll rest dest
          | some fd =>
            if fd.reg then
              if fail (dataNameOf ent.name) then
                moveScanSpec fail incAll rest dest
              else if fail ent.name then
                moveScanSpec fail incAll rest
                  ((dest ++ [dataNameOf ent.name]).erase (dataNameOf ent.name))
              else
                moveScanSpec fail incAll rest
                  (dest ++ [dataNameOf ent.name] ++ [ent.name])
            else moveScanSpec fail incAll rest dest
        else moveScanSpec fail incAll rest dest
      else moveScanSpec fail incAll rest dest

/-- Every destination-directory state of the scan, one snapshot before
the loop and after each linkat/unlinkat on the destination: what a
concurrent reader of the active queue can observe. -/
def moveScanSnaps (fail : List Char → Bool) (incAll : List FEntry) :
    List FEntry → List (List Char) → List (List (List Char))
  | [], dest => [dest]
  | ent :: rest, dest =>
    match ent.name with
    | [] => dest :: moveScanSnaps fail incAll rest dest
    | c :: _ =>
      if c = '.' then dest :: moveScanSnaps fail incAll rest dest
      else if isMetaName ent.name then
        if ent.reg then
          match incAll.find? (fun f => f.name == dataNameOf ent.name) with
          | none => dest :: moveScanSnaps fail incAll rest dest
          | some fd =>
            if fd.reg then
              if fail (dataNameOf ent.name) then
                dest :: moveScanSnaps fail incAll rest dest
              else if fail ent.name then
                [dest, dest ++ [dataNameOf ent.name],
                 (dest ++ [dataNameOf ent.name]).erase (dataNameOf ent.name)]
              else
                dest :: (dest ++ [dataNameOf ent.name]) ::
                  moveScanSnaps fail incAll rest
                    (dest ++ [dataNameOf ent.name] ++ [ent.name])
            else dest :: moveScanSnaps fail incAll rest dest
        else dest :: moveScanSnaps fail incAll rest dest
      else dest :: moveScanSnaps fail incAll rest dest

/-- Names promoted past dest₀ come in complete meta/data pairs. -/
def pairClosed (dest₀ dst : List (List Char)) : Prop :=
  ∀ x ∈ dst, x ∉ dest₀ →
    (isMetaName x = true → dataNameOf x ∈ dst)
    ∧ (isDataName x = true → metaNameOf x ∈ dst)

/-- The complete pair "a.meta"/"a.data" followed by the complete pair
"b.meta"/"b.data" in scan order. -/
def aMeta : List Char := ['a', '.', 'm', 'e', 't', 'a']

def aData : List Char := ['a', '.', 'd', 'a', 't', 'a']

def bMeta : List Char := ['b', '.', 'm', 'e', 't', 'a']

def bData : List Char := ['b', '.', 'd', 'a', 't', 'a']

/-- An _incoming directory holding both complete pairs as regular
files. -/
def incC2 : List FEntry :=
  [⟨aMeta, true⟩, ⟨aData, true⟩, ⟨bMeta, true⟩, ⟨bData, true⟩]

/-- A link oracle where only the link of "a.meta" fails. -/
def failC2 : List Char → Bool := fun n => n == aMeta

/-- An always-succeeding link oracle. -/
def failNone : List Char → Bool := fun _ => false

/-- Two one-hot bitset values share a bit exactly when the indices agree. -/
theorem one_shiftLeft_and_eq_zero (a b : Nat) :
    (1 <<< a) &&& (1 <<< b) = 0 ↔ a ≠ b := by
  rw [Nat.shiftLeft_eq, Nat.shiftLeft_eq, one_mul, one_mul, Nat.and_two_pow,
    Nat.testBit_two_pow]
  by_cases h : a = b <;> simp [h]

/-- C4, counterexample: the scenario event (hour = 3, timezone_offset =
+01:00) does not fire at UTC 02:00:00 (2024-01-01T02:00:00Z, host local
time = UTC): the embedded C matcher returns 0 where the
specification-modelled matcher returns 1. -/
theorem C4_counterexample :
    lmap_event_calendar_match 0 dailyEvent 1704074400 = 0 ∧
    spec_calendar_match 0 dailyEvent 1704074400 = 1 := by
  constructor <;> decide

/-- C4, amended: calendar matching never observes the timezone_offset of
the Event; the broken-down fields are always those of local time. In
particular the scenario event fires exactly when local time reads
03:00:00, no matter what timezone_offset is configured. -/
theorem C4_amended :
    (∀ (localOff off : Int) (s : Bool) (e : CalEvent) (now : Nat),
      lmap_event_calendar_match localOff
        { e with timezone_offset_set := s, timezone_offset := off } now
      = lmap_event_calendar_match localOff e now)
    ∧
    (∀ (localOff : Int) (now : Nat),
      lmap_event_calendar_match localOff dailyEvent now
      = if (localtm localOff now).hour = 3 ∧ (localtm localOff now).min = 0
            ∧ (localtm localOff now).sec = 0 then 1 else 0) := by
  constructor
  · intro localOff off s e now
    rfl
  · intro localOff now
    show lmap_event_calendar_match localOff dailyEvent now = _
    unfold lmap_event_calendar_match dailyEvent
    simp only [UINT8_MAX, UINT16_MAX, UINT32_MAX, UINT64_MAX]
    norm_num [one_shiftLeft_and_eq_zero]
    by_cases h1 : (localtm localOff now).hour = 3 <;>
      by_cases h2 : (localtm localOff now).min = 0 <;>
      by_cases h3 : (localtm localOff now).sec = 0 <;>
      simp [h1, h2, h3]

/-- C5, counterexample: with start = 0, interval = 10, now = 20 (now−start
an exact multiple of the interval), the timer is armed 10 seconds out, so
the first firing is at 30, while the claimed ceil formula
start + ceil((now−start)/i)·i gives 20. The two formulations the claim
declares equivalent disagree at this boundary input. -/
theorem C5_counterexample :
    periodic_arm_delay 0 10 20 = 10 ∧
    (20 : Int) + periodic_arm_delay 0 10 20 = 30 ∧
    (0 : Int) + specCeilDiv (20 - 0) 10 * 10 = 20 ∧
    (30 : Int) ≠ 20 := by
  refine ⟨by decide, by decide, by decide, by decide⟩

/-- C5, amended: the start_event timer is armed at
((now−start)/i + 1)·i + start − now seconds (floor division). This equals
the claimed start + ceil((now−start)/i)·i first-firing instant whenever i
does not divide now−start; when i divides now−start the first firing is
at now + i instead. The uint32 product does not wrap provided
(now−start) + i < 2^32. -/
theorem C5_amended (start interval now : Nat) (hi : 0 < interval)
    (hs : start < now) (hw : (now - start) + interval < 2 ^ 32) :
    periodic_arm_delay start interval now
      = ((((now - start) / interval + 1) * interval + start : Nat) : Int) - now
    ∧ (¬ interval ∣ (now - start) →
        (now : Int) + periodic_arm_delay start interval now
          = start + specCeilDiv (now - start) interval * interval)
    ∧ (interval ∣ (now - start) →
        (now : Int) + periodic_arm_delay start interval now
          = now + interval) := by
  set m := now - start with hm
  set q := m / interval with hq
  have hqr : q * interval + m % interval = m := by
    have h := Nat.div_add_mod m interval
    rw [mul_comm interval q] at h
    exact h
  have hrlt : m % interval < interval := Nat.mod_lt _ hi
  have hexp : (q + 1) * interval = q * interval + interval := by ring
  have hnowrap : (q + 1) * interval < 2 ^ 32 := by omega
  have hmod : ((q + 1) * interval) % 2 ^ 32 = (q + 1) * interval :=
    Nat.mod_eq_of_lt hnowrap
  have hdelay : periodic_arm_delay start interval now
      = (start : Int) + ((q + 1) * interval : Nat) - now := by
    show (start : Int) + (((q + 1) * interval) % 2 ^ 32 : Nat) - now = _
    rw [hmod]
  refine ⟨?_, ?_, ?_⟩
  · rw [hdelay]
    push_cast
    ring
  · intro hnd
    have hr0 : m % interval ≠ 0 := fun h => hnd (Nat.dvd_iff_mod_eq_zero.mpr h)
    have hceil : specCeilDiv m interval = q + 1 := by
      unfold specCeilDiv
      have hrepr : m + interval - 1 = (m % interval + interval - 1) + q * interval := by
        omega
      rw [hrepr, Nat.add_mul_div_right _ _ hi]
      have h1 : (m % interval + interval - 1) / interval = 1 := by
        apply Nat.div_eq_of_lt_le <;> omega
      omega
    rw [hdelay, hceil]
    have hsm : (start : Int) + m = now := by omega
    push_cast
    linarith
  · intro hd
    have hr0 : m % interval = 0 := Nat.dvd_iff_mod_eq_zero.mp hd
    have hqm : (q + 1) * interval = m + interval := by omega
    rw [hdelay, hqm]
    have hsm : (start : Int) + m = now := by omega
    push_cast
    linarith

/-- C5, witness: the amended theorem applied at start = 5, interval = 7,
now = 20. -/
theorem C5_amended_witness :
    periodic_arm_delay 5 7 20 = ((((20 - 5) / 7 + 1) * 7 + 5 : Nat) : Int) - 20
    ∧ (¬ 7 ∣ (20 - 5) →
        (20 : Int) + periodic_arm_delay 5 7 20
          = 5 + specCeilDiv (20 - 5) 7 * 7)
    ∧ (7 ∣ (20 - 5) →
        (20 : Int) + periodic_arm_delay 5 7 20 = 20 + 7) :=
  C5_amended 5 7 20 (by decide) (by decide) (by decide)

/-- C3, counterexample: the CSV round trip fails (with the meta-file
delimiter 59, a semicolon) for an empty field, for a field containing a
newline, and for a field that begins with a double quote. The empty
field is written as nothing, so the reader takes the record terminator
for an empty record; the quoted newline still terminates the field; a
leading double quote is swallowed by the `i == 0 && c == quote` branch. -/
theorem C3_counterexample :
    csv_read_record 59 (csv_write_record 59 [[]]) ≠ [[]] ∧
    csv_read_record 59 (csv_write_record 59 [[97, 10, 98]]) ≠ [[97, 10, 98]] ∧
    csv_read_record 59 (csv_write_record 59 [[34, 97]]) ≠ [[34, 97]] := by
  refine ⟨by decide, by decide, by decide⟩

/-- One csv_next_unquoted step on an ordinary byte. -/
theorem csv_next_unquoted_step (d : Nat) (acc : List Nat) (c : Nat) (rest : List Nat)
    (h1 : c ≠ d) (h2 : c ≠ csvLF) :
    csv_next_unquoted d acc (c :: rest) = csv_next_unquoted d (c :: acc) rest := by
  conv_lhs => rw [csv_next_unquoted]
  simp [h1, h2]

/-- csv_next_unquoted ends the field at an unquoted delimiter, consuming it. -/
theorem csv_next_unquoted_delim (d : Nat) (acc s : List Nat) :
    csv_next_unquoted d acc (d :: s) = (some acc.reverse, s) := by
  conv_lhs => rw [csv_next_unquoted]
  simp

/-- csv_next_unquoted ends the field at a newline and pushes it back. -/
theorem csv_next_unquoted_lf (d : Nat) (acc s : List Nat) (h : d ≠ csvLF) :
    csv_next_unquoted d acc (csvLF :: s) = (some acc.reverse, csvLF :: s) := by
  conv_lhs => rw [csv_next_unquoted]
  simp [Ne.symm h]

/-- Reading an unquoted stretch accumulates it: bytes that are neither
the delimiter nor a newline are stored one by one. -/
theorem csv_next_unquoted_run (d : Nat) (f : List Nat)
    (hf : ∀ c ∈ f, c ≠ d ∧ c ≠ csvLF) (acc s : List Nat) :
    csv_next_unquoted d acc (f ++ s)
      = csv_next_unquoted d (f.reverse ++ acc) s := by
  induction f generalizing acc with
  | nil => simp
  | cons c cs ih =>
    have hc := hf c (by simp)
    have hcs : ∀ x ∈ cs, x ≠ d ∧ x ≠ csvLF := fun x hx => hf x (by simp [hx])
    rw [List.cons_append, csv_next_unquoted_step d acc c _ hc.1 hc.2, ih hcs]
    simp

/-- One csv_next_quoted step on an ordinary byte (neither newline nor
double quote); works for any buffer. -/
theorem csv_next_quoted_step (d : Nat) (acc : List Nat) (c : Nat) (rest : List Nat)
    (h1 : c ≠ csvLF) (h2 : c ≠ csvQuote) :
    csv_next_quoted d acc (c :: rest) = csv_next_quoted d (c :: acc) rest := by
  conv_lhs => rw [csv_next_quoted.eq_def]
  simp [h1, h2]

/-- With a nonempty buffer, a double quote in quoted mode runs the escape
branch, which is csvQuoteClose. -/
theorem csv_next_quoted_close (d : Nat) (acc : List Nat)
    (hacc : acc ≠ []) (s : List Nat) :
    csv_next_quoted d acc (csvQuote :: s) = csvQuoteClose d acc s := by
  have hql : csvQuote ≠ csvLF := by decide
  cases s with
  | nil =>
    conv_lhs => rw [csv_next_quoted.eq_def]
    rw [csvQuoteClose]
    simp [hacc, hql]
  | cons c2 rest2 =>
    conv_lhs => rw [csv_next_quoted.eq_def]
    rw [csvQuoteClose]
    simp [hacc, hql]

/-- Reading the escaped body of a quoted field with a nonempty buffer
accumulates the unescaped bytes and hands over to csvQuoteClose at the
closing double quote. -/
theorem csv_next_quoted_esc (d : Nat) (hdq : d ≠ csvQuote) (f : List Nat)
    (hf : ∀ c ∈ f, c ≠ csvLF) (acc : List Nat) (hacc : acc ≠ [])
    (s : List Nat) :
    csv_next_quoted d acc (escQuote f ++ csvQuote :: s)
      = csvQuoteClose d (f.reverse ++ acc) s := by
  induction f generalizing acc with
  | nil =>
    simp only [escQuote, List.nil_append, List.reverse_nil]
    exact csv_next_quoted_close d acc hacc s
  | cons c cs ih =>
    have hc : c ≠ csvLF := hf c (by simp)
    have hcs : ∀ x ∈ cs, x ≠ csvLF := fun x hx => hf x (by simp [hx])
    by_cases hq : c = csvQuote
    · subst hq
      rw [show escQuote (csvQuote :: cs) = csvQuote :: csvQuote :: escQuote cs by
        simp [escQuote]]
      rw [List.cons_append, List.cons_append,
        csv_next_quoted_close d acc hacc]
      rw [show csvQuoteClose d acc
            (csvQuote :: (escQuote cs ++ csvQuote :: s))
          = csv_next_quoted d (csvQuote :: acc) (escQuote cs ++ csvQuote :: s) by
        rw [csvQuoteClose]
        simp [Ne.symm hdq, show csvQuote ≠ csvLF by decide]]
      rw [ih hcs (csvQuote :: acc) (by simp)]
      simp
    · rw [show escQuote (c :: cs) = c :: escQuote cs by simp [escQuote, hq]]
      rw [List.cons_append, csv_next_quoted_step d acc c _ hc hq,
        ih hcs (c :: acc) (by simp)]
      simp

/-- csv_next on a leading newline: NULL with the newline consumed. -/
theorem csv_next_lf (d : Nat) (hdlf : d ≠ csvLF) (s : List Nat) :
    csv_next d (csvLF :: s) = (none, s) := by
  conv_lhs => rw [csv_next.eq_def]
  simp [Ne.symm hdlf]

/-- csv_next on a leading double quote enters quoted mode. -/
theorem csv_next_quote (d : Nat) (hdq : d ≠ csvQuote) (s : List Nat) :
    csv_next d (csvQuote :: s) = csv_next_quoted d [] s := by
  conv_lhs => rw [csv_next.eq_def]
  simp [Ne.symm hdq, show c_isspace csvQuote = false by decide,
    show csvQuote ≠ csvLF by decide]

/-- csv_next on a leading ordinary byte stores it and continues unquoted. -/
theorem csv_next_ord (d : Nat) (c : Nat) (h1 : c ≠ d) (h2 : c_isspace c = false)
    (h3 : c ≠ csvQuote) (s : List Nat) :
    csv_next d (c :: s) = csv_next_unquoted d [c] s := by
  have h4 : c ≠ csvLF := by
    intro h
    subst h
    simp [c_isspace, csvLF] at h2
  conv_lhs => rw [csv_next.eq_def]
  simp [h1, h2, h3, h4]

/-- What need_quote = false says about each byte of the field, for a
nonzero delimiter. -/
theorem need_quote_false (d : Nat) (hd0 : d ≠ 0) (f : List Nat)
    (h : need_quote d f = false) :
    ∀ c ∈ f, c ≠ d ∧ c ≠ csvQuote ∧ c_isspace c = false := by
  intro c hc
  unfold need_quote at h
  rw [List.any_eq_false] at h
  have hcp := h c hc
  simp only [Bool.or_eq_true, not_or, Bool.and_eq_true, bne_iff_ne, beq_iff_eq,
    not_and] at hcp
  refine ⟨fun hcd => hcp.1.1 (fun hdz => hd0 hdz) hcd, hcp.1.2, ?_⟩
  cases hcs : c_isspace c
  · rfl
  · exact absurd hcs hcp.2

/-- A byte that is not white space is not a newline. -/
theorem not_isspace_ne_lf (c : Nat) (h : c_isspace c = false) : c ≠ csvLF := by
  intro hc
  subst hc
  simp [c_isspace, csvLF] at h

/-- csv_next reads back a written field followed by a delimiter: the
field is returned verbatim and the delimiter is consumed. -/
theorem csv_next_field_delim (d : Nat) (hd0 : d ≠ 0) (hdlf : d ≠ csvLF)
    (hdq : d ≠ csvQuote) (f : List Nat) (hf : goodField f) (s : List Nat) :
    csv_next d (csv_append_field d f ++ d :: s) = (some f, s) := by
  obtain ⟨hne, hlf, h0, hhd⟩ := hf
  cases f with
  | nil => exact absurd rfl hne
  | cons c0 f2 =>
    have hc0q : c0 ≠ csvQuote := fun h => hhd (by simp [h])
    have hc0lf : c0 ≠ csvLF := fun h => hlf (by simp [h])
    have hf2lf : ∀ x ∈ f2, x ≠ csvLF := fun x hx hq =>
      hlf (List.mem_cons_of_mem _ (hq ▸ hx))
    unfold csv_append_field
    by_cases hq : need_quote d (c0 :: f2)
    · rw [if_pos hq]
      rw [show (csvQuote :: (escQuote (c0 :: f2) ++ [csvQuote])) ++ d :: s
          = csvQuote :: (escQuote (c0 :: f2) ++ csvQuote :: (d :: s)) by simp]
      rw [csv_next_quote d hdq]
      rw [show escQuote (c0 :: f2) = c0 :: escQuote f2 by simp [escQuote, hc0q]]
      rw [List.cons_append, csv_next_quoted_step d [] c0 _ hc0lf hc0q]
      rw [csv_next_quoted_esc d hdq f2 hf2lf [c0] (by simp) (d :: s)]
      rw [csvQuoteClose]
      simp
    · rw [if_neg hq]
      have hby := need_quote_false d hd0 (c0 :: f2) (by simpa using hq)
      have hc0 := hby c0 (by simp)
      rw [List.cons_append, csv_next_ord d c0 hc0.1 hc0.2.2 hc0.2.1]
      rw [show f2 ++ d :: s = f2 ++ (d :: s) by simp]
      rw [csv_next_unquoted_run d f2
        (fun x hx => ⟨(hby x (by simp [hx])).1,
          not_isspace_ne_lf x (hby x (by simp [hx])).2.2⟩) [c0] (d :: s)]
      rw [csv_next_unquoted_delim]
      simp

/-- csv_next reads back the last written field of a record: the field is
returned verbatim; an unquoted field pushes the final newline back while
a quoted field consumes it. -/
theorem csv_next_field_last (d : Nat) (hd0 : d ≠ 0) (hdlf : d ≠ csvLF)
    (hdq : d ≠ csvQuote) (f : List Nat) (hf : goodField f) :
    csv_next d (csv_append_field d f ++ [csvLF]) = (some f, [csvLF]) ∨
    csv_next d (csv_append_field d f ++ [csvLF]) = (some f, []) := by
  obtain ⟨hne, hlf, h0, hhd⟩ := hf
  cases f with
  | nil => exact absurd rfl hne
  | cons c0 f2 =>
    have hc0q : c0 ≠ csvQuote := fun h => hhd (by simp [h])
    have hc0lf : c0 ≠ csvLF := fun h => hlf (by simp [h])
    have hf2lf : ∀ x ∈ f2, x ≠ csvLF := fun x hx hq =>
      hlf (List.mem_cons_of_mem _ (hq ▸ hx))
    unfold csv_append_field
    by_cases hq : need_quote d (c0 :: f2)
    · right
      rw [if_pos hq]
      rw [show (csvQuote :: (escQuote (c0 :: f2) ++ [csvQuote])) ++ [csvLF]
          = csvQuote :: (escQuote (c0 :: f2) ++ csvQuote :: [csvLF]) by simp]
      rw [csv_next_quote d hdq]
      rw [show escQuote (c0 :: f2) = c0 :: escQuote f2 by simp [escQuote, hc0q]]
      rw [List.cons_append, csv_next_quoted_step d [] c0 _ hc0lf hc0q]
      rw [csv_next_quoted_esc d hdq f2 hf2lf [c0] (by simp) [csvLF]]
      rw [csvQuoteClose]
      simp [Ne.symm hdlf]
    · left
      rw [if_neg hq]
      have hby := need_quote_false d hd0 (c0 :: f2) (by simpa using hq)
      have hc0 := hby c0 (by simp)
      rw [List.cons_append, csv_next_ord d c0 hc0.1 hc0.2.2 hc0.2.1]
      rw [csv_next_unquoted_run d f2
        (fun x hx => ⟨(hby x (by simp [hx])).1,
          not_isspace_ne_lf x (hby x (by simp [hx])).2.2⟩) [c0] [csvLF]]
      rw [csv_next_unquoted_lf d _ _ hdlf]
      simp

/-- Splitting a written record at its first field when more fields follow. -/
theorem csv_write_record_cons₂ (d : Nat) (f g : List Nat) (fs : List (List Nat)) :
    csv_write_record d (f :: g :: fs)
      = csv_append_field d f ++ d :: csv_write_record d (g :: fs) := by
  simp [csv_write_record]

/-- A one-field record is the field followed by the newline. -/
theorem csv_write_record_single (d : Nat) (f : List Nat) :
    csv_write_record d [f] = csv_append_field d f ++ [csvLF] := by
  simp [csv_write_record]

/-- A written field is never empty when the field is a goodField. -/
theorem csv_append_field_ne_nil (d : Nat) (f : List Nat) (hf : goodField f) :
    csv_append_field d f ≠ [] := by
  unfold csv_append_field
  by_cases hq : need_quote d f
  · rw [if_pos hq]
    simp
  · rw [if_neg hq]
    exact hf.1

/-- A written record is at least one byte longer than its field count. -/
theorem csv_write_record_length (d : Nat) (fs : List (List Nat))
    (hfs : ∀ f ∈ fs, goodField f) :
    fs.length + 1 ≤ (csv_write_record d fs).length := by
  induction fs with
  | nil => simp [csv_write_record]
  | cons f fs ih =>
    have hf : goodField f := hfs f (by simp)
    have hlen : 1 ≤ (csv_append_field d f).length := by
      have := csv_append_field_ne_nil d f hf
      cases hfld : csv_append_field d f with
      | nil => exact absurd hfld this
      | cons a as => simp
    cases fs with
    | nil =>
      rw [csv_write_record_single]
      simp only [List.length_append, List.length_cons, List.length_nil]
      omega
    | cons g gs =>
      have ihx := ih (fun x hx => hfs x (List.mem_cons_of_mem _ hx))
      rw [csv_write_record_cons₂]
      simp only [List.length_append, List.length_cons] at *
      omega

/-- One step of csv_read_fields with positive fuel. -/
theorem csv_read_fields_step (d fuel : Nat) (s : List Nat) :
    csv_read_fields d (fuel + 1) s
      = match csv_next d s with
        | (none, _) => []
        | (some f, rest) => f :: csv_read_fields d fuel rest := by
  rw [csv_read_fields.eq_def]

/-- Reading back a written record field by field, with any sufficient
fuel. -/
theorem csv_read_fields_write (d : Nat) (hd0 : d ≠ 0) (hdlf : d ≠ csvLF)
    (hdq : d ≠ csvQuote) (fs : List (List Nat)) (hfs : ∀ f ∈ fs, goodField f)
    (fuel : Nat) (hfuel : fs.length + 1 ≤ fuel) :
    csv_read_fields d fuel (csv_write_record d fs) = fs := by
  induction fs generalizing fuel with
  | nil =>
    cases fuel with
    | zero => omega
    | succ k =>
      rw [show csv_write_record d [] = [csvLF] by rfl]
      rw [csv_read_fields_step, csv_next_lf d hdlf]
  | cons f fs ih =>
    have hf : goodField f := hfs f (by simp)
    cases fuel with
    | zero => omega
    | succ k =>
      cases fs with
      | nil =>
        rw [csv_write_record_single, csv_read_fields_step]
        rcases csv_next_field_last d hd0 hdlf hdq f hf with h | h
        · rw [h]
          have hk : 1 ≤ k := by simpa using hfuel
          cases k with
          | zero => omega
          | succ j =>
            show f :: csv_read_fields d (j + 1) [csvLF] = [f]
            rw [csv_read_fields_step, csv_next_lf d hdlf]
        · rw [h]
          have hk : 1 ≤ k := by simpa using hfuel
          cases k with
          | zero => omega
          | succ j =>
            show f :: csv_read_fields d (j + 1) [] = [f]
            rw [csv_read_fields_step]
            rfl
      | cons g gs =>
        rw [csv_write_record_cons₂, csv_read_fields_step]
        rw [csv_next_field_delim d hd0 hdlf hdq f hf]
        show f :: csv_read_fields d k (csv_write_record d (g :: gs)) = f :: g :: gs
        rw [ih (fun x hx => hfs x (List.mem_cons_of_mem _ hx)) k
          (by simpa using Nat.lt_of_succ_le hfuel)]

/-- C3, amended: the CSV round trip read(write(F)) = F holds for every
record F whose fields are nonempty NUL-free byte strings that contain no
newline and do not begin with a double quote, for any delimiter that is
neither NUL, newline nor the double quote (csv.c uses the semicolon). -/
theorem C3_amended (d : Nat) (hd0 : d ≠ 0) (hdlf : d ≠ csvLF)
    (hdq : d ≠ csvQuote) (fs : List (List Nat))
    (hfs : ∀ f ∈ fs, goodField f) :
    csv_read_record d (csv_write_record d fs) = fs := by
  unfold csv_read_record
  refine csv_read_fields_write d hd0 hdlf hdq fs hfs _ ?_
  have := csv_write_record_length d fs hfs
  omega

/-- C3, witness: the amended round trip at the semicolon delimiter on a
record whose fields exercise quoting (a plain word, a field with an
inner double quote, a field containing the delimiter and a space). -/
theorem C3_amended_witness :
    csv_read_record 59 (csv_write_record 59 [[104, 105], [97, 34, 98], [59, 32]])
      = [[104, 105], [97, 34, 98], [59, 32]] :=
  C3_amended 59 (by decide) (by decide) (by decide)
    [[104, 105], [97, 34, 98], [59, 32]] (by decide)

namespace Lmap

/-- C8: an Action is only ever forked when its resolved Task's program
is string-equal to some Capability task's program. When no capability
matches, action_exec never returns 1, leaves pid and cnt_invocations
unchanged, and, if the Action was neither disabled nor suppressed,
returns -1 (failure) without running anything. -/
theorem C8_capability_gate (ctx : Ctx) (t npid : Nat) (a : Action)
    (task : Task) (prog : String)
    (hfind : lmap_find_task ctx.tasks a.task = some task)
    (hprog : task.program = some prog)
    (hnocap : ∀ tp ∈ ctx.capabilities, tp.program ≠ some prog) :
    (action_exec ctx t npid a).1 ≠ 1
    ∧ (action_exec ctx t npid a).2.pid = a.pid
    ∧ (action_exec ctx t npid a).2.cnt_invocations = a.cnt_invocations
    ∧ (a.state ≠ ActionState.disabled → a.state ≠ ActionState.suppressed →
        (action_exec ctx t npid a).1 = -1) := by
  have hany : (ctx.capabilities.any fun tp => tp.program == some prog) = false := by
    rw [List.any_eq_false]
    intro tp htp
    simpa using hnocap tp htp
  by_cases hsup : a.state = ActionState.suppressed
  · have hout : action_exec ctx t npid a
        = (0, { a with cnt_suppressions := a.cnt_suppressions + 1 }) := by
      unfold action_exec
      simp [hsup]
    rw [hout]
    exact ⟨show (0 : Int) ≠ 1 by norm_num, rfl, rfl, fun _ hns => absurd hsup hns⟩
  · by_cases hdis : a.state = ActionState.disabled
    · have hout : action_exec ctx t npid a = (0, a) := by
        unfold action_exec
        simp [hsup, hdis]
      rw [hout]
      exact ⟨show (0 : Int) ≠ 1 by norm_num, rfl, rfl, fun hnd _ => absurd hdis hnd⟩
    · have hout : action_exec ctx t npid a = (-1, a) := by
        unfold action_exec
        simp [hsup, hdis, hfind, hprog, hany]
      rw [hout]
      exact ⟨show (-1 : Int) ≠ 1 by norm_num, rfl, rfl, fun _ _ => rfl⟩

/-- C8, witness: the capability gate at a concrete action whose task
resolves to a program no capability lists. -/
theorem C8_capability_gate_witness :
    (action_exec { tasks := [{ task0 with program := some "/bin/rogue" }]
                   capabilities := [task0], globMatch := fun p tg => p == tg }
        5 9 action0).1 ≠ 1
    ∧ (action_exec { tasks := [{ task0 with program := some "/bin/rogue" }]
                     capabilities := [task0], globMatch := fun p tg => p == tg }
        5 9 action0).2.pid = action0.pid
    ∧ (action_exec { tasks := [{ task0 with program := some "/bin/rogue" }]
                     capabilities := [task0], globMatch := fun p tg => p == tg }
        5 9 action0).2.cnt_invocations = action0.cnt_invocations
    ∧ (action0.state ≠ ActionState.disabled →
       action0.state ≠ ActionState.suppressed →
       (action_exec { tasks := [{ task0 with program := some "/bin/rogue" }]
                      capabilities := [task0], globMatch := fun p tg => p == tg }
          5 9 action0).1 = -1) :=
  C8_capability_gate _ 5 9 action0 { task0 with program := some "/bin/rogue" }
    "/bin/rogue" (by decide) (by decide) (by decide)

/-- The survey at the end of a cleanup only rewrites the schedule state
and failure counter; the action list stays put. -/
theorem cleanup_survey_actions (s : Schedule) :
    (cleanup_survey s).actions = s.actions := by
  unfold cleanup_survey
  dsimp only []
  repeat' split
  all_goals rfl

/-- The completion update always re-enables the action and clears its
pid, whatever its prior state and counters. -/
theorem reap_action_enables (t : Nat) (status : Int) (a : Action) :
    (reap_action t status a).state = ActionState.enabled
    ∧ (reap_action t status a).pid = 0 := by
  unfold reap_action
  by_cases h : status ≠ 0 <;> simp [h]

/-- C10: when lmapd_cleanup reaps a child it unconditionally sets the
owning Action to enabled with pid 0; in particular an Action that was
suppressed while running (so with positive cnt_active_suppressions)
comes back enabled. Stated for a schedule whose first action owns the
reaped pid: the cleanup succeeds and that action is replaced by its
completion update, which is enabled with pid 0 for every prior state. -/
theorem C10_reap_enables (ctx : Ctx) (t : Nat) (pids : String → Nat)
    (pid : Nat) (status : Int) (s : Schedule) (a1 : Action) (as : List Action)
    (hacts : s.actions = a1 :: as) (hpid : a1.pid = pid) :
    ∃ s2, lmapd_cleanup_sched ctx t pids pid status s = some s2
      ∧ s2.actions.head? = some (reap_action t status a1)
      ∧ (reap_action t status a1).state = ActionState.enabled
      ∧ (reap_action t status a1).pid = 0 := by
  have hclean : ∃ acts,
      cleanup_actions ctx t pids pid status
        (s.mode == ExecMode.sequential
          && !(s.state == ScheduleState.suppressed) && !s.stop_running)
        s.actions = some acts
      ∧ acts.head? = some (reap_action t status a1) := by
    rw [hacts]
    cases as with
    | nil =>
      refine ⟨[reap_action t status a1], ?_, rfl⟩
      unfold cleanup_actions
      simp [hpid]
    | cons b bs =>
      by_cases hx : (s.mode == ExecMode.sequential
          && !(s.state == ScheduleState.suppressed) && !s.stop_running) = true
      · refine ⟨reap_action t status a1
            :: (action_exec ctx t (pids b.name) b).2 :: bs, ?_, rfl⟩
        unfold cleanup_actions
        simp [hpid, hx]
      · refine ⟨reap_action t status a1 :: b :: bs, ?_, rfl⟩
        unfold cleanup_actions
        simp [hpid, hx]
  obtain ⟨acts, hca, hhead⟩ := hclean
  have hre := reap_action_enables t status a1
  refine ⟨cleanup_survey { s with actions := acts }, ?_, ?_, hre.1, hre.2⟩
  · simp only [lmapd_cleanup_sched]
    rw [hca]
  · rw [cleanup_survey_actions]
    exact hhead

/-- C10, witness: reaping the suppressed-while-running action with exit
status 0 re-enables it even though cnt_active_suppressions is 1. -/
theorem C10_reap_enables_witness :
    ∃ s2, lmapd_cleanup_sched ctx0 100 (fun _ => 9) 7 0 schedRun = some s2
      ∧ s2.actions.head? = some (reap_action 100 0 actSup)
      ∧ (reap_action 100 0 actSup).state = ActionState.enabled
      ∧ (reap_action 100 0 actSup).pid = 0 :=
  C10_reap_enables ctx0 100 (fun _ => 9) 7 0 schedRun actSup [] rfl rfl

/-- C1, counterexample: in a sequential schedule the completion handler
starts the successor even when the predecessor failed. Reaping pid 7
with exit status 1 leaves a1 with last_status 1, yet a2 is executed: it
ends up running with cnt_invocations = 1, where the claim requires a2
not to run and its counters to stay 0. -/
theorem C1_counterexample :
    ((step_run ctx0 { schedules := [schedSeq], supps := [] }
        (Step.reap 7 1 100 fun _ _ => 9)).schedules.map
      fun s => s.actions.map fun a => (a.name, a.state, a.cnt_invocations, a.last_status))
    = [[("a1", ActionState.enabled, 0, (1 : Int)),
        ("a2", ActionState.running, 1, 0)]] := by
  rfl

/-- C1, amended: in a sequential schedule the completion handler starts
the successor of the reaped Action whenever the Schedule is not
suppressed and does not carry STOP_RUNNING, regardless of the
predecessor's exit status: the successor is passed to action_exec for
every status value, including failures. -/
theorem C1_amended (ctx : Ctx) (t : Nat) (pids : String → Nat) (pid : Nat)
    (status : Int) (s : Schedule) (a1 b : Action) (bs : List Action)
    (hacts : s.actions = a1 :: b :: bs) (hpid : a1.pid = pid)
    (hmode : s.mode = ExecMode.sequential)
    (hns : s.state ≠ ScheduleState.suppressed) (hnr : s.stop_running = false) :
    ∃ s2, lmapd_cleanup_sched ctx t pids pid status s = some s2
      ∧ s2.actions = reap_action t status a1
          :: (action_exec ctx t (pids b.name) b).2 :: bs := by
  have hsucc : (s.mode == ExecMode.sequential
      && !(s.state == ScheduleState.suppressed) && !s.stop_running) = true := by
    simp [hmode, hns, hnr]
  have hca : cleanup_actions ctx t pids pid status
      (s.mode == ExecMode.sequential
        && !(s.state == ScheduleState.suppressed) && !s.stop_running)
      s.actions
      = some (reap_action t status a1
          :: (action_exec ctx t (pids b.name) b).2 :: bs) := by
    rw [hacts]
    unfold cleanup_actions
    simp [hpid, hsucc]
  refine ⟨cleanup_survey { s with actions := reap_action t status a1
      :: (action_exec ctx t (pids b.name) b).2 :: bs }, ?_, ?_⟩
  · simp only [lmapd_cleanup_sched]
    rw [hca]
  · rw [cleanup_survey_actions]

/-- C1, witness: the amended successor rule at the concrete failing
predecessor (exit status 1): a2 is handed to action_exec. -/
theorem C1_amended_witness :
    ∃ s2, lmapd_cleanup_sched ctx0 100 (fun _ => 9) 7 1 schedSeq = some s2
      ∧ s2.actions = reap_action 100 1 actA1
          :: (action_exec ctx0 100 9 actA2).2 :: [] :=
  C1_amended ctx0 100 (fun _ => 9) 7 1 schedSeq actA1 actA2 [] rfl rfl rfl
    (by decide) rfl

theorem SPreserve.rfl (s : Schedule) : SPreserve s s := by
  unfold SPreserve
  simp

theorem SPreserve.trans {s1 s2 s3 : Schedule}
    (h1 : SPreserve s1 s2) (h2 : SPreserve s2 s3) : SPreserve s1 s3 := by
  unfold SPreserve at h1 h2 ⊢
  obtain ⟨a1, b1, c1, d1, e1, f1, g1, h1a, h1b⟩ := h1
  obtain ⟨a2, b2, c2, d2, e2, f2, g2, h2a, h2b⟩ := h2
  exact ⟨a2.trans a1, b2.trans b1, c2.trans c1, d2.trans d1, e2.trans e1,
    f2.trans f1, g2.trans g1, h2a.trans h1a, h2b.trans h1b⟩

theorem supp_start_sched_m_facts (sp : Supp) (s : Schedule) :
    (supp_start_sched_m sp s).cnt_active_suppressions
        = s.cnt_active_suppressions + 1
    ∧ (supp_start_sched_m sp s).suppression_tags = s.suppression_tags
    ∧ (supp_start_sched_m sp s).actions = s.actions
    ∧ (supp_start_sched_m sp s).cnt_invocations = s.cnt_invocations
    ∧ (supp_start_sched_m sp s).cnt_suppressions = s.cnt_suppressions
    ∧ (supp_start_sched_m sp s).cnt_overlaps = s.cnt_overlaps
    ∧ (supp_start_sched_m sp s).cnt_failures = s.cnt_failures
    ∧ (supp_start_sched_m sp s).name = s.name
    ∧ (supp_start_sched_m sp s).start = s.start
    ∧ (supp_start_sched_m sp s).mode = s.mode
    ∧ ((supp_start_sched_m sp s).state = ScheduleState.running
        ↔ s.state = ScheduleState.running)
    ∧ ((supp_start_sched_m sp s).state = ScheduleState.disabled
        ↔ s.state = ScheduleState.disabled) := by
  unfold supp_start_sched_m
  dsimp only []
  by_cases he : s.state = ScheduleState.enabled <;>
    by_cases hr : sp.stop_running = true
  · rw [if_pos he, if_pos hr]
    refine ⟨rfl, rfl, rfl, rfl, rfl, rfl, rfl, rfl, rfl, rfl, ?_, ?_⟩ <;> simp_all
  · rw [if_pos he, if_neg hr]
    refine ⟨rfl, rfl, rfl, rfl, rfl, rfl, rfl, rfl, rfl, rfl, ?_, ?_⟩ <;> simp_all
  · rw [if_neg he, if_pos hr]
    refine ⟨rfl, rfl, rfl, rfl, rfl, rfl, rfl, rfl, rfl, rfl, Iff.rfl, Iff.rfl⟩
  · rw [if_neg he, if_neg hr]
    refine ⟨rfl, rfl, rfl, rfl, rfl, rfl, rfl, rfl, rfl, rfl, Iff.rfl, Iff.rfl⟩

theorem supp_end_sched_m_facts (s : Schedule) :
    (supp_end_sched_m s).suppression_tags = s.suppression_tags
    ∧ (supp_end_sched_m s).actions = s.actions
    ∧ (supp_end_sched_m s).cnt_invocations = s.cnt_invocations
    ∧ (supp_end_sched_m s).cnt_suppressions = s.cnt_suppressions
    ∧ (supp_end_sched_m s).cnt_overlaps = s.cnt_overlaps
    ∧ (supp_end_sched_m s).cnt_failures = s.cnt_failures
    ∧ (supp_end_sched_m s).name = s.name
    ∧ (supp_end_sched_m s).start = s.start
    ∧ (supp_end_sched_m s).mode = s.mode
    ∧ ((supp_end_sched_m s).state = ScheduleState.running
        ↔ s.state = ScheduleState.running)
    ∧ ((supp_end_sched_m s).state = ScheduleState.disabled
        ↔ s.state = ScheduleState.disabled)
    ∧ (s.cnt_active_suppressions ≠ 0 →
        (supp_end_sched_m s).cnt_active_suppressions
          = s.cnt_active_suppressions - 1) := by
  unfold supp_end_sched_m
  by_cases hc : s.cnt_active_suppressions ≠ 0
  · rw [if_pos hc]
    dsimp only []
    split
    · rename_i hcond
      refine ⟨rfl, rfl, rfl, rfl, rfl, rfl, rfl, rfl, rfl, ?_, ?_,
        fun _ => rfl⟩ <;> simp_all
    · exact ⟨rfl, rfl, rfl, rfl, rfl, rfl, rfl, rfl, rfl, Iff.rfl, Iff.rfl,
        fun _ => rfl⟩
  · rw [if_neg hc]
    dsimp only []
    split
    · rename_i hcond
      refine ⟨rfl, rfl, rfl, rfl, rfl, rfl, rfl, rfl, rfl, ?_, ?_,
        fun hx => absurd hx hc⟩ <;> simp_all
    · exact ⟨rfl, rfl, rfl, rfl, rfl, rfl, rfl, rfl, rfl, Iff.rfl, Iff.rfl,
        fun hx => absurd hx hc⟩

theorem supp_start_sched_preserve (ctx : Ctx) (sp : Supp) (s : Schedule) :
    SPreserve s (supp_start_sched ctx sp s) := by
  unfold supp_start_sched
  by_cases hd : s.state = ScheduleState.disabled
  · rw [if_pos hd]
    exact SPreserve.rfl s
  · rw [if_neg hd]
    by_cases hm : big_tag_match ctx.globMatch sp.match_globs s.suppression_tags
        = true
    · simp only [hm, if_true]
      obtain ⟨-, -, -, f4, f5, f6, f7, f8, f9, f10, f11, f12⟩ :=
        supp_start_sched_m_facts sp s
      exact ⟨f8, f9, f10, f4, f5, f6, f7, f11, f12⟩
    · simp only [hm, if_false]
      exact ⟨rfl, rfl, rfl, rfl, rfl, rfl, rfl, Iff.rfl, Iff.rfl⟩

theorem supp_end_sched_preserve (ctx : Ctx) (sp : Supp) (s : Schedule) :
    SPreserve s (supp_end_sched ctx sp s) := by
  unfold supp_end_sched
  by_cases hd : s.state = ScheduleState.disabled
  · rw [if_pos hd]
    exact SPreserve.rfl s
  · rw [if_neg hd]
    by_cases hm : big_tag_match ctx.globMatch sp.match_globs s.suppression_tags
        = true
    · simp only [hm, if_true]
      obtain ⟨-, -, e3, e4, e5, e6, e7, e8, e9, e10, e11, -⟩ :=
        supp_end_sched_m_facts s
      exact ⟨e7, e8, e9, e3, e4, e5, e6, e10, e11⟩
    · simp only [hm, if_false]
      exact ⟨rfl, rfl, rfl, rfl, rfl, rfl, rfl, Iff.rfl, Iff.rfl⟩

theorem suppression_start_sched (ctx : Ctx) (sp : Supp) (scheds : List Schedule)
    (i : Nat) (s : Schedule) (h : scheds[i]? = some s) :
    ∃ s2, ((suppression_start ctx sp scheds).2)[i]? = some s2 ∧ SPreserve s s2 := by
  unfold suppression_start
  by_cases hm : sp.match_globs = []
  · exact ⟨s, by simp [hm, h], SPreserve.rfl s⟩
  · refine ⟨supp_start_sched ctx { sp with state := SuppState.active } s, ?_, ?_⟩
    · simp [hm, List.getElem?_map, h]
    · exact supp_start_sched_preserve _ _ s

theorem suppression_end_sched (ctx : Ctx) (sp : Supp) (scheds : List Schedule)
    (i : Nat) (s : Schedule) (h : scheds[i]? = some s) :
    ∃ s2, ((suppression_end ctx sp scheds).2)[i]? = some s2 ∧ SPreserve s s2 := by
  unfold suppression_end
  by_cases hm : sp.match_globs = []
  · exact ⟨s, by simp [hm, h], SPreserve.rfl s⟩
  · refine ⟨supp_end_sched ctx { sp with state := SuppState.enabled } s, ?_, ?_⟩
    · simp [hm, List.getElem?_map, h]
    · exact supp_end_sched_preserve _ _ s

/-- One suppression of the suppress_cb loop evolves every schedule by an
SPreserve step. -/
theorem suppress_one_sched (ctx : Ctx) (e : EventStim) (sp : Supp)
    (scheds : List Schedule) (i : Nat) (s : Schedule) (h : scheds[i]? = some s) :
    ∃ s2, ((suppress_one ctx e sp scheds).2)[i]? = some s2 ∧ SPreserve s s2 := by
  have hfirst : ∃ s1, ((if sp.start = some e.name then
        if sp.state = SuppState.enabled then suppression_start ctx sp scheds
        else (sp, scheds)
      else (sp, scheds)).2)[i]? = some s1 ∧ SPreserve s s1 := by
    split
    · split
      · exact suppression_start_sched ctx sp scheds i s h
      · exact ⟨s, h, SPreserve.rfl s⟩
    · exact ⟨s, h, SPreserve.rfl s⟩
  obtain ⟨s1, h1, hp1⟩ := hfirst
  unfold suppress_one
  dsimp only []
  generalize hR : (if sp.start = some e.name then
      if sp.state = SuppState.enabled then suppression_start ctx sp scheds
      else (sp, scheds)
    else (sp, scheds)) = r1 at h1 ⊢
  split
  · split
    · obtain ⟨s2, h2, hp2⟩ := suppression_end_sched ctx r1.1 r1.2 i s1 h1
      exact ⟨s2, h2, hp1.trans hp2⟩
    · exact ⟨s1, h1, hp1⟩
  · exact ⟨s1, h1, hp1⟩

/-- The whole suppression pass of a firing: each schedule evolves by an
SPreserve step. -/
theorem suppress_cb_sched (ctx : Ctx) (e : EventStim) :
    ∀ (supps : List Supp) (scheds : List Schedule) (i : Nat) (s : Schedule),
    scheds[i]? = some s →
    ∃ s2, ((suppress_cb ctx e supps scheds).2)[i]? = some s2 ∧ SPreserve s s2 := by
  intro supps
  induction supps with
  | nil =>
    intro scheds i s h
    exact ⟨s, h, SPreserve.rfl s⟩
  | cons sp rest ih =>
    intro scheds i s h
    unfold suppress_cb
    by_cases hd : sp.state = SuppState.disabled
    · simp only [hd, if_true]
      exact ih scheds i s h
    · simp only [hd, if_false]
      obtain ⟨s1, h1, hp1⟩ := suppress_one_sched ctx e sp scheds i s h
      obtain ⟨s2, h2, hp2⟩ := ih _ i s1 h1
      exact ⟨s2, h2, hp1.trans hp2⟩

/-- schedule_exec on a sequential or parallel schedule: exactly one
invocation is counted; the other counters, identity and mode are
untouched. -/
theorem schedule_exec_effect (ctx : Ctx) (t : Nat) (pids : String → Nat)
    (s : Schedule)
    (hmode : s.mode = ExecMode.sequential ∨ s.mode = ExecMode.parallel) :
    (schedule_exec ctx t pids s).cnt_invocations = s.cnt_invocations + 1
    ∧ (schedule_exec ctx t pids s).cnt_suppressions = s.cnt_suppressions
    ∧ (schedule_exec ctx t pids s).cnt_overlaps = s.cnt_overlaps
    ∧ (schedule_exec ctx t pids s).cnt_failures = s.cnt_failures
    ∧ (schedule_exec ctx t pids s).mode = s.mode
    ∧ (schedule_exec ctx t pids s).start = s.start := by
  unfold schedule_exec
  rcases hmode with hm | hm <;> rw [hm]
  · dsimp only []
    rcases hs : s.actions with _ | ⟨a, rest⟩
    · exact ⟨rfl, rfl, rfl, rfl, rfl, rfl⟩
    · split <;> (try split) <;> exact ⟨rfl, rfl, rfl, rfl, rfl, rfl⟩
  · dsimp only []
    split <;> exact ⟨rfl, rfl, rfl, rfl, rfl, rfl⟩

/-- execute_cb on one schedule of sequential or parallel mode: the
firing adds exactly one to the suppression, overlap, or invocation
counter when the schedule's start names the event and the schedule is
not disabled, and nothing otherwise; mode and start are preserved and
the failure bound survives. -/
theorem execute_sched_effect (ctx : Ctx) (e : EventStim) (t : Nat)
    (pids : String → Nat) (s : Schedule)
    (hmode : s.mode = ExecMode.sequential ∨ s.mode = ExecMode.parallel) :
    (execute_sched ctx e t pids s).mode = s.mode
    ∧ (execute_sched ctx e t pids s).start = s.start
    ∧ csum (execute_sched ctx e t pids s)
        = csum s + (if s.start = some e.name ∧ s.state ≠ ScheduleState.disabled
            then 1 else 0)
    ∧ (fbound s → fbound (execute_sched ctx e t pids s)) := by
  unfold execute_sched
  by_cases hd : s.state = ScheduleState.disabled
  · simp [hd, csum]
  · simp only [hd, if_false]
    by_cases hst : s.start = some e.name
    · rw [if_pos hst]
      by_cases hsup : s.state = ScheduleState.suppressed
      · rw [if_pos hsup]
        refine ⟨rfl, rfl, ?_, ?_⟩
        · simp [csum, hst, hd]
          omega
        · intro hf
          unfold fbound at hf ⊢
          simpa [hsup] using hf
      · rw [if_neg hsup]
        by_cases hrun : s.state = ScheduleState.running
        · rw [if_pos hrun]
          refine ⟨rfl, rfl, ?_, ?_⟩
          · simp [csum, hst, hd]
            omega
          · intro hf
            unfold fbound at hf ⊢
            simpa [hrun] using hf
        · rw [if_neg hrun]
          set s' : Schedule := { s with cycle_number :=
              if e.cycle_interval ≠ 0 then t / e.cycle_interval * e.cycle_interval
              else 0 } with hs'
          set sx := schedule_exec ctx t pids s' with hsx
          have heff := schedule_exec_effect ctx t pids s'
            (show s'.mode = ExecMode.sequential ∨ s'.mode = ExecMode.parallel
              from hmode)
          rw [← hsx] at heff
          obtain ⟨hinv, hsupc, hovc, hfailc, hmodec, hstartc⟩ := heff
          have hinv2 : sx.cnt_invocations = s.cnt_invocations + 1 := hinv
          have hsupc2 : sx.cnt_suppressions = s.cnt_suppressions := hsupc
          have hovc2 : sx.cnt_overlaps = s.cnt_overlaps := hovc
          have hfailc2 : sx.cnt_failures = s.cnt_failures := hfailc
          have hmodec2 : sx.mode = s.mode := hmodec
          have hstartc2 : sx.start = s.start := hstartc
          have hindle : (if sx.state = ScheduleState.running then 1 else 0) ≤ 1 := by
            split <;> omega
          refine ⟨?_, ?_, ?_, ?_⟩
          · split
            · exact hmodec2
            · exact hmodec2
          · split
            · exact hstartc2
            · exact hstartc2
          · have hone : (if s.start = some e.name
                ∧ s.state ≠ ScheduleState.disabled then 1 else 0) = 1 := by
              simp [hst, hd]
            rw [hone]
            unfold csum
            split
            · simp only []
              omega
            · omega
          · intro hf
            unfold fbound at hf ⊢
            rw [if_neg hrun] at hf
            split
            · dsimp only []
              rw [if_neg (show ¬(ScheduleState.disabled = ScheduleState.running)
                from by decide)]
              omega
            · omega
    · rw [if_neg hst]
      refine ⟨rfl, rfl, ?_, fun hf => hf⟩
      simp [hst]

theorem SPreserve.csum_eq {s s2 : Schedule} (h : SPreserve s s2) :
    csum s2 = csum s := by
  obtain ⟨-, -, -, hi, hsu, hov, -, -, -⟩ := h
  unfold csum
  omega

theorem SPreserve.fbound_imp {s s2 : Schedule} (h : SPreserve s s2) :
    fbound s → fbound s2 := by
  intro hf
  obtain ⟨-, -, -, hi, -, -, hfc, hri, -⟩ := h
  unfold fbound at hf ⊢
  have hind : (if s2.state = ScheduleState.running then 1 else 0)
      = (if s.state = ScheduleState.running then 1 else 0) := by
    by_cases hr : s.state = ScheduleState.running
    · rw [if_pos (hri.mpr hr), if_pos hr]
    · rw [if_neg (fun hx => hr (hri.mp hx)), if_neg hr]
  omega

/-- The survey at the end of a cleanup keeps the per-firing counters,
mode, start and name, and preserves the failure bound. -/
theorem cleanup_survey_effect (x : Schedule) :
    (cleanup_survey x).cnt_invocations = x.cnt_invocations
    ∧ (cleanup_survey x).cnt_suppressions = x.cnt_suppressions
    ∧ (cleanup_survey x).cnt_overlaps = x.cnt_overlaps
    ∧ (cleanup_survey x).mode = x.mode
    ∧ (cleanup_survey x).start = x.start
    ∧ (fbound x → fbound (cleanup_survey x)) := by
  unfold cleanup_survey
  by_cases h1 : x.state = ScheduleState.running
  · rw [if_pos h1]
    dsimp only []
    by_cases h2 : x.cnt_active_suppressions ≠ 0
    · rw [if_pos h2]
      by_cases h3 : (x.actions.any fun a => a.state == ActionState.running) = true
      · rw [if_pos h3,
          if_neg (show ¬(ScheduleState.running ≠ ScheduleState.running) by simp)]
        refine ⟨rfl, rfl, rfl, rfl, rfl, ?_⟩
        intro hf
        unfold fbound at hf ⊢
        rw [if_pos h1] at hf
        dsimp only []
        split <;> first | omega | simp_all
      · rw [if_neg h3,
          if_pos (show ScheduleState.suppressed ≠ ScheduleState.running by simp)]
        by_cases h4 : (x.actions.any fun a => a.last_status ≠ 0) = true <;>
          [rw [if_pos h4]; rw [if_neg h4]] <;>
          · refine ⟨rfl, rfl, rfl, rfl, rfl, ?_⟩
            intro hf
            unfold fbound at hf ⊢
            rw [if_pos h1] at hf
            dsimp only []
            split <;> first | omega | simp_all
    · rw [if_neg h2]
      by_cases h3 : (x.actions.any fun a => a.state == ActionState.running) = true
      · rw [if_pos h3,
          if_neg (show ¬(ScheduleState.running ≠ ScheduleState.running) by simp)]
        refine ⟨rfl, rfl, rfl, rfl, rfl, ?_⟩
        intro hf
        unfold fbound at hf ⊢
        rw [if_pos h1] at hf
        dsimp only []
        split <;> first | omega | simp_all
      · rw [if_neg h3,
          if_pos (show ScheduleState.enabled ≠ ScheduleState.running by simp)]
        by_cases h4 : (x.actions.any fun a => a.last_status ≠ 0) = true <;>
          [rw [if_pos h4]; rw [if_neg h4]] <;>
          · refine ⟨rfl, rfl, rfl, rfl, rfl, ?_⟩
            intro hf
            unfold fbound at hf ⊢
            rw [if_pos h1] at hf
            dsimp only []
            split <;> first | omega | simp_all
  · rw [if_neg h1]
    exact ⟨rfl, rfl, rfl, rfl, rfl, fun hf => hf⟩

theorem CPreserve.self (s : Schedule) : CPreserve s s :=
  ⟨rfl, rfl, rfl, rfl, rfl, fun hf => hf⟩

theorem lmapd_cleanup_sched_effect (ctx : Ctx) (t : Nat) (pids : String → Nat)
    (pid : Nat) (status : Int) (s s2 : Schedule)
    (h : lmapd_cleanup_sched ctx t pids pid status s = some s2) :
    CPreserve s s2 := by
  revert h
  simp only [lmapd_cleanup_sched]
  cases hca : cleanup_actions ctx t pids pid status
      (s.mode == ExecMode.sequential
        && !(s.state == ScheduleState.suppressed) && !s.stop_running) s.actions with
  | none =>
    intro h
    exact absurd h (by simp)
  | some acts =>
    intro h
    have hs2 : s2 = cleanup_survey { s with actions := acts } := by
      injection h with h2
      exact h2.symm
    subst hs2
    have heff := cleanup_survey_effect { s with actions := acts }
    obtain ⟨e1, e2, e3, e4, e5, e6⟩ := heff
    refine ⟨e1, e2, e3, e4, e5, ?_⟩
    intro hf
    apply e6
    unfold fbound at hf ⊢
    exact hf

theorem lmapd_cleanup_one_sched (ctx : Ctx) (t : Nat)
    (pidFn : String → String → Nat) (pid : Nat) (status : Int) :
    ∀ (scheds : List Schedule) (i : Nat) (s : Schedule), scheds[i]? = some s →
    ∃ s2, (lmapd_cleanup_one ctx t pidFn pid status scheds)[i]? = some s2
      ∧ CPreserve s s2 := by
  intro scheds
  induction scheds with
  | nil =>
    intro i s h
    simp at h
  | cons y rest ih =>
    intro i s h
    unfold lmapd_cleanup_one
    cases hy : lmapd_cleanup_sched ctx t (pidFn y.name) pid status y with
    | some y2 =>
      cases i with
      | zero =>
        have hys : y = s := by simpa using h
        refine ⟨y2, by simp, ?_⟩
        rw [← hys]
        exact lmapd_cleanup_sched_effect _ _ _ _ _ _ _ hy
      | succ j =>
        simp at h
        exact ⟨s, by simpa using h, CPreserve.self s⟩
    | none =>
      cases i with
      | zero =>
        have hys : y = s := by simpa using h
        refine ⟨y, by simp, ?_⟩
        rw [← hys]
        exact CPreserve.self y
      | succ j =>
        simp at h
        obtain ⟨s2, h2, hp⟩ := ih j s h
        exact ⟨s2, by simpa using h2, hp⟩

/-- One callback step as seen by the i-th schedule: mode preserved, the
counter sum moves by exactly the relevance indicator, and the failure
bound survives. -/
theorem step_run_sched (ctx : Ctx) (stp : Step) (st : MState) (i : Nat)
    (s : Schedule) (h : st.schedules[i]? = some s)
    (hmode : s.mode = ExecMode.sequential ∨ s.mode = ExecMode.parallel) :
    ∃ s2, (step_run ctx st stp).schedules[i]? = some s2 ∧ s2.mode = s.mode
      ∧ csum s2 = csum s + relevant_firing ctx st i stp
      ∧ (fbound s → fbound s2) := by
  cases stp with
  | fire e t pidFn =>
    obtain ⟨s1, h1, hp1⟩ := suppress_cb_sched ctx e st.supps st.schedules i s h
    have hmode1 : s1.mode = s.mode := hp1.2.2.1
    have heff := execute_sched_effect ctx e t (pidFn s1.name) s1
      (by rw [hmode1]; exact hmode)
    refine ⟨execute_sched ctx e t (pidFn s1.name) s1, ?_, ?_, ?_, ?_⟩
    · show (execute_cb ctx e t pidFn
          ((suppress_cb ctx e st.supps st.schedules).2))[i]? = _
      unfold execute_cb
      rw [List.getElem?_map, h1]
      rfl
    · rw [heff.1, hmode1]
    · have hrel : relevant_firing ctx st i (Step.fire e t pidFn)
          = (if s1.start = some e.name ∧ s1.state ≠ ScheduleState.disabled
             then 1 else 0) := by
        simp only [relevant_firing]
        rw [h1]
      rw [hrel, heff.2.2.1, hp1.csum_eq]
    · intro hf
      exact heff.2.2.2 (hp1.fbound_imp hf)
  | reap pid status t pidFn =>
    by_cases hp : pid = 0
    · refine ⟨s, ?_, rfl, ?_, fun hf => hf⟩
      · simp [step_run, hp, h]
      · simp only [relevant_firing]
        omega
    · obtain ⟨s2, h2, hpres⟩ :=
        lmapd_cleanup_one_sched ctx t pidFn pid status st.schedules i s h
      refine ⟨s2, ?_, hpres.2.2.2.1, ?_, hpres.2.2.2.2.2⟩
      · simpa [step_run, hp] using h2
      · simp only [relevant_firing, csum]
        obtain ⟨e1, e2, e3, -⟩ := hpres
        omega

/-- Along any trace, the counter sum of a sequential or parallel
schedule grows by exactly the number of relevant firings, and the
failure bound survives. -/
theorem run_steps_sched (ctx : Ctx) (tr : List Step) :
    ∀ (st : MState) (i : Nat) (s : Schedule), st.schedules[i]? = some s →
    (s.mode = ExecMode.sequential ∨ s.mode = ExecMode.parallel) →
    ∃ s2, (run_steps ctx st tr).schedules[i]? = some s2 ∧ s2.mode = s.mode
      ∧ csum s2 = csum s + count_firings ctx st i tr
      ∧ (fbound s → fbound s2) := by
  induction tr with
  | nil =>
    intro st i s h hmode
    exact ⟨s, h, rfl, by simp [count_firings], fun hf => hf⟩
  | cons stp rest ih =>
    intro st i s h hmode
    obtain ⟨s1, h1, hm1, hc1, hf1⟩ := step_run_sched ctx stp st i s h hmode
    obtain ⟨s2, h2, hm2, hc2, hf2⟩ := ih (step_run ctx st stp) i s1 h1
      (by rw [hm1]; exact hmode)
    refine ⟨s2, h2, by rw [hm2, hm1], ?_, fun hf => hf2 (hf1 hf)⟩
    show csum s2 = csum s + count_firings ctx st i (stp :: rest)
    unfold count_firings
    omega

/-- C6, amended: for every Schedule of sequential or parallel execution
mode, starting with zeroed counters and not running,
cnt_invocations + cnt_suppressions + cnt_overlaps equals the number of
start-Event firings that occurred while the Schedule was enabled,
suppressed or running (each such firing increments exactly one of the
three, where the state is the one execute_cb inspects, after the
suppression pass of the same firing), and cnt_failures never exceeds
cnt_invocations. A pipelined Schedule violates the sum (see the
counterexample), so the claim is restricted to the other two modes. -/
theorem C6_amended (ctx : Ctx) (st : MState) (tr : List Step) (i : Nat)
    (s : Schedule) (h : st.schedules[i]? = some s)
    (hmode : s.mode = ExecMode.sequential ∨ s.mode = ExecMode.parallel)
    (hz : s.cnt_invocations = 0 ∧ s.cnt_suppressions = 0 ∧ s.cnt_overlaps = 0
      ∧ s.cnt_failures = 0 ∧ s.state ≠ ScheduleState.running) :
    ∃ s2, (run_steps ctx st tr).schedules[i]? = some s2
      ∧ s2.cnt_invocations + s2.cnt_suppressions + s2.cnt_overlaps
          = count_firings ctx st i tr
      ∧ s2.cnt_failures ≤ s2.cnt_invocations := by
  obtain ⟨hz1, hz2, hz3, hz4, hz5⟩ := hz
  obtain ⟨s2, h2, hm2, hc2, hf2⟩ := run_steps_sched ctx tr st i s h hmode
  have hcs : csum s = 0 := by
    unfold csum
    omega
  have hfb : fbound s := by
    unfold fbound
    rw [if_neg hz5]
    omega
  have hfb2 := hf2 hfb
  unfold fbound at hfb2
  unfold csum at hc2
  refine ⟨s2, h2, by omega, by omega⟩

/-- C6, counterexample: a pipelined Schedule receives one relevant start
firing while enabled, yet none of cnt_invocations, cnt_suppressions,
cnt_overlaps is incremented (schedule_exec only disables it), so the
claimed sum 0 differs from the firing count 1. -/
theorem C6_counterexample :
    ((run_steps ctx0 { schedules := [schedPipe], supps := [] }
        [fireGo]).schedules.map fun s =>
            s.cnt_invocations + s.cnt_suppressions + s.cnt_overlaps)
      = [0]
    ∧ count_firings ctx0 { schedules := [schedPipe], supps := [] } 0 [fireGo] = 1
    ∧ (0 : Nat) ≠ 1 :=
  ⟨rfl, rfl, by decide⟩

/-- C6, witness: the amended theorem on the baseline sequential schedule
and a single firing of its start Event. -/
theorem C6_amended_witness :
    ∃ s2, (run_steps ctx0 { schedules := [sched0], supps := [] }
        [fireGo]).schedules[0]? = some s2
      ∧ s2.cnt_invocations + s2.cnt_suppressions + s2.cnt_overlaps
          = count_firings ctx0 { schedules := [sched0], supps := [] } 0 [fireGo]
      ∧ s2.cnt_failures ≤ s2.cnt_invocations :=
  C6_amended ctx0 { schedules := [sched0], supps := [] }
    [fireGo] 0 sched0 rfl (Or.inl rfl)
    ⟨rfl, rfl, rfl, rfl, by decide⟩

theorem active_matching_append (ctx : Ctx) (s1 s2 : List Supp)
    (tags : List String) :
    active_matching ctx (s1 ++ s2) tags
      = active_matching ctx s1 tags + active_matching ctx s2 tags := by
  unfold active_matching
  rw [List.filter_append, List.length_append]

theorem active_matching_cons (ctx : Ctx) (sp : Supp) (supps : List Supp)
    (tags : List String) :
    active_matching ctx (sp :: supps) tags
      = (if sp.state = SuppState.active
            ∧ big_tag_match ctx.globMatch sp.match_globs tags = true
         then 1 else 0) + active_matching ctx supps tags := by
  unfold active_matching
  rw [List.filter_cons]
  split
  · rename_i hcond
    simp only [Bool.and_eq_true, beq_iff_eq] at hcond
    rw [if_pos hcond]
    simp [Nat.add_comm]
  · rename_i hcond
    simp only [Bool.and_eq_true, beq_iff_eq, not_and] at hcond
    rw [if_neg]
    · simp
    · intro hx
      exact absurd hx.2 (by simpa using hcond hx.1)

/-- Classification of action_exec outputs: the action is unchanged, or
one counter is bumped, or the action is forked; the counter and fork
cases pin down the prior state. -/
theorem action_exec_cases (ctx : Ctx) (t npid : Nat) (a : Action) :
    (action_exec ctx t npid a).2 = a
    ∨ ((action_exec ctx t npid a).2
        = { a with cnt_suppressions := a.cnt_suppressions + 1 }
       ∧ a.state = ActionState.suppressed)
    ∨ ((action_exec ctx t npid a).2
        = { a with cnt_overlaps := a.cnt_overlaps + 1 }
       ∧ a.state ≠ ActionState.disabled ∧ a.state ≠ ActionState.suppressed)
    ∨ ((action_exec ctx t npid a).2
        = { a with pid := npid, last_invocation := t,
                   state := ActionState.running,
                   cnt_invocations := a.cnt_invocations + 1 }
       ∧ a.state ≠ ActionState.disabled ∧ a.state ≠ ActionState.suppressed) := by
  unfold action_exec
  by_cases hsup : a.state = ActionState.suppressed
  · right; left
    exact ⟨by simp [hsup], hsup⟩
  · by_cases hdis : a.state = ActionState.disabled
    · left
      simp [hsup, hdis]
    · rcases hfind : lmap_find_task ctx.tasks a.task with _ | task
      · left
        simp [hsup, hdis, hfind]
      · rcases hprog : task.program with _ | prog
        · left
          simp [hsup, hdis, hfind, hprog]
        · by_cases hcap : (ctx.capabilities.any fun tp => tp.program == some prog)
              = true
          · by_cases hpid : a.pid ≠ 0
            · right; right; left
              exact ⟨by simp [hsup, hdis, hfind, hprog, hcap, hpid], hdis, hsup⟩
            · rcases hargv1 : argv_fill 252 0 task.options with _ | i
              · left
                simp [hsup, hdis, hfind, hprog, hcap, hpid, hargv1]
              · rcases hargv2 : argv_fill 252 i a.options with _ | j
                · left
                  simp [hsup, hdis, hfind, hprog, hcap, hpid, hargv1, hargv2]
                · by_cases hnp : npid = 0
                  · left
                    simp [hsup, hdis, hfind, hprog, hcap, hpid, hargv1, hargv2, hnp]
                  · right; right; right
                    refine ⟨by simp [hsup, hdis, hfind, hprog, hcap, hpid,
                      hargv1, hargv2, hnp], hdis, hsup⟩
          · left
            simp [hsup, hdis, hfind, hprog, hcap]

theorem action_exec_inv_fields (ctx : Ctx) (t npid : Nat) (a : Action) :
    (action_exec ctx t npid a).2.suppression_tags = a.suppression_tags
    ∧ (action_exec ctx t npid a).2.cnt_active_suppressions
        = a.cnt_active_suppressions
    ∧ ((action_exec ctx t npid a).2.state = ActionState.disabled →
        a.state = ActionState.disabled
        ∧ (action_exec ctx t npid a).2.pid = a.pid) := by
  rcases action_exec_cases ctx t npid a with h | ⟨h, hs⟩ | ⟨h, hd, hs⟩ | ⟨h, hd, hs⟩ <;>
    rw [h]
  · exact ⟨rfl, rfl, fun hx => ⟨hx, rfl⟩⟩
  · exact ⟨rfl, rfl, fun hx => ⟨hx, rfl⟩⟩
  · exact ⟨rfl, rfl, fun hx => ⟨hx, rfl⟩⟩
  · refine ⟨rfl, rfl, fun hx => ?_⟩
    exact absurd hx (by simp)

theorem supp_start_action_fields (ctx : Ctx) (sp : Supp) (ss : Bool) (a : Action) :
    (supp_start_action ctx sp ss a).suppression_tags = a.suppression_tags
    ∧ (supp_start_action ctx sp ss a).pid = a.pid
    ∧ ((supp_start_action ctx sp ss a).state = ActionState.disabled
        ↔ a.state = ActionState.disabled)
    ∧ (a.state ≠ ActionState.disabled →
        big_tag_match ctx.globMatch sp.match_globs a.suppression_tags = true →
        (supp_start_action ctx sp ss a).cnt_active_suppressions
          = a.cnt_active_suppressions + 1)
    ∧ (a.state = ActionState.disabled
        ∨ big_tag_match ctx.globMatch sp.match_globs a.suppression_tags = false →
        supp_start_action ctx sp ss a = a) := by
  refine ⟨?_, ?_, ?_, ?_, ?_⟩
  · unfold supp_start_action
    dsimp only []
    repeat' split
    all_goals rfl
  · unfold supp_start_action
    dsimp only []
    repeat' split
    all_goals rfl
  · unfold supp_start_action
    dsimp only []
    repeat' split
    all_goals constructor <;> intro hx <;> simp_all
  · intro hnd hm
    unfold supp_start_action
    rw [if_neg hnd, if_pos hm]
    dsimp only []
    repeat' split
    all_goals rfl
  · intro hx
    unfold supp_start_action
    rcases hx with hx | hx
    · rw [if_pos hx]
    · by_cases hd : a.state = ActionState.disabled
      · rw [if_pos hd]
      · rw [if_neg hd, if_neg (by simp [hx])]

theorem supp_end_action_fields (ctx : Ctx) (sp : Supp) (a : Action) :
    (supp_end_action ctx sp a).suppression_tags = a.suppression_tags
    ∧ (supp_end_action ctx sp a).pid = a.pid
    ∧ ((supp_end_action ctx sp a).state = ActionState.disabled
        ↔ a.state = ActionState.disabled)
    ∧ (a.state ≠ ActionState.disabled →
        big_tag_match ctx.globMatch sp.match_globs a.suppression_tags = true →
        a.cnt_active_suppressions ≠ 0 →
        (supp_end_action ctx sp a).cnt_active_suppressions
          = a.cnt_active_suppressions - 1)
    ∧ (a.state = ActionState.disabled
        ∨ big_tag_match ctx.globMatch sp.match_globs a.suppression_tags = false →
        supp_end_action ctx sp a = a) := by
  refine ⟨?_, ?_, ?_, ?_, ?_⟩
  · unfold supp_end_action
    dsimp only []
    repeat' split
    all_goals rfl
  · unfold supp_end_action
    dsimp only []
    repeat' split
    all_goals rfl
  · unfold supp_end_action
    dsimp only []
    repeat' split
    all_goals constructor <;> intro hx <;> simp_all
  · intro hnd hm hc
    unfold supp_end_action
    rw [if_neg hnd, if_pos hm, if_pos hc]
    dsimp only []
    split
    · rfl
    · rfl
  · intro hx
    unfold supp_end_action
    rcases hx with hx | hx
    · rw [if_pos hx]
    · by_cases hd : a.state = ActionState.disabled
      · rw [if_pos hd]
      · rw [if_neg hd, if_neg (by simp [hx])]

theorem active_matching_activate (ctx : Ctx) (sp : Supp) (pre post : List Supp)
    (tags : List String) (hen : sp.state ≠ SuppState.active) :
    active_matching ctx (pre ++ { sp with state := SuppState.active } :: post) tags
      = active_matching ctx (pre ++ sp :: post) tags
        + (if big_tag_match ctx.globMatch sp.match_globs tags = true
           then 1 else 0) := by
  rw [active_matching_append, active_matching_append,
    active_matching_cons, active_matching_cons]
  by_cases hm : big_tag_match ctx.globMatch sp.match_globs tags = true <;>
    simp [hm, hen] <;> omega

theorem active_matching_deactivate (ctx : Ctx) (sp : Supp) (pre post : List Supp)
    (tags : List String) (hact : sp.state = SuppState.active) :
    active_matching ctx (pre ++ sp :: post) tags
      = active_matching ctx
          (pre ++ { sp with state := SuppState.enabled } :: post) tags
        + (if big_tag_match ctx.globMatch sp.match_globs tags = true
           then 1 else 0) := by
  rw [active_matching_append, active_matching_append,
    active_matching_cons, active_matching_cons]
  by_cases hm : big_tag_match ctx.globMatch sp.match_globs tags = true <;>
    simp [hm, hact] <;> omega

theorem supp_start_actions_inv (ctx : Ctx) (sp : Supp) (pre post : List Supp)
    (hen : sp.state ≠ SuppState.active) (ss : Bool) (l : List Action)
    (hl : ∀ a ∈ l,
      (a.state ≠ ActionState.disabled →
        a.cnt_active_suppressions
          = active_matching ctx (pre ++ sp :: post) a.suppression_tags)
      ∧ (a.state = ActionState.disabled → a.pid = 0)) :
    ∀ a2 ∈ l.map (supp_start_action ctx { sp with state := SuppState.active } ss),
      (a2.state ≠ ActionState.disabled →
        a2.cnt_active_suppressions
          = active_matching ctx
              (pre ++ { sp with state := SuppState.active } :: post)
              a2.suppression_tags)
      ∧ (a2.state = ActionState.disabled → a2.pid = 0) := by
  intro a2 ha2
  rcases List.mem_map.mp ha2 with ⟨a, ha, hfa⟩
  obtain ⟨hcnt, hpid⟩ := hl a ha
  obtain ⟨ftags, fpid, fdis, fbump, fid⟩ :=
    supp_start_action_fields ctx { sp with state := SuppState.active } ss a
  subst hfa
  by_cases hda : a.state = ActionState.disabled
  · rw [fid (Or.inl hda)]
    exact ⟨fun hnd => absurd hda hnd, hpid⟩
  · constructor
    · intro _
      rw [ftags,
        active_matching_activate ctx sp pre post a.suppression_tags hen]
      by_cases hm : big_tag_match ctx.globMatch sp.match_globs
          a.suppression_tags = true
      · rw [fbump hda hm, hcnt hda, if_pos hm]
      · rw [fid (Or.inr (by simpa using hm)), hcnt hda, if_neg hm]
        omega
    · intro hx
      exact absurd (fdis.mp hx) hda

theorem supp_start_sched_inv (ctx : Ctx) (sp : Supp) (pre post : List Supp)
    (hen : sp.state ≠ SuppState.active) (s : Schedule)
    (h : SchedInvPair ctx (pre ++ sp :: post) s) :
    SchedInvPair ctx (pre ++ { sp with state := SuppState.active } :: post)
      (supp_start_sched ctx { sp with state := SuppState.active } s) := by
  obtain ⟨hsch, hact⟩ := h
  unfold supp_start_sched
  by_cases hd : s.state = ScheduleState.disabled
  · rw [if_pos hd]
    refine ⟨fun hnd => absurd hd hnd, fun a ha => ?_⟩
    exact ⟨fun hnd _ => absurd hd hnd, (hact a ha).2⟩
  · rw [if_neg hd]
    dsimp only []
    by_cases hm : big_tag_match ctx.globMatch
        ({ sp with state := SuppState.active } : Supp).match_globs
        s.suppression_tags = true
    · rw [if_pos hm]
      have hm' : big_tag_match ctx.globMatch sp.match_globs
          s.suppression_tags = true := hm
      obtain ⟨fcnt, ftags, facts, -⟩ :=
        supp_start_sched_m_facts { sp with state := SuppState.active } s
      constructor
      · intro _
        show (supp_start_sched_m { sp with state := SuppState.active } s
            ).cnt_active_suppressions
          = active_matching ctx
              (pre ++ { sp with state := SuppState.active } :: post)
              (supp_start_sched_m { sp with state := SuppState.active } s
                ).suppression_tags
        rw [fcnt, ftags,
          active_matching_activate ctx sp pre post s.suppression_tags hen,
          hsch hd, if_pos hm']
      · intro a2 ha2
        replace ha2 : a2 ∈
            (supp_start_sched_m { sp with state := SuppState.active } s
              ).actions.map
              (supp_start_action ctx { sp with state := SuppState.active }
                (supp_start_sched_m { sp with state := SuppState.active } s
                  ).stop_running) := ha2
        rw [facts] at ha2
        have hlem := supp_start_actions_inv ctx sp pre post hen
          ((supp_start_sched_m { sp with state := SuppState.active } s
            ).stop_running) s.actions
          (fun a ha => ⟨fun hnd => (hact a ha).1 hd hnd, (hact a ha).2⟩)
          a2 ha2
        exact ⟨fun _ => hlem.1, hlem.2⟩
    · rw [if_neg hm]
      have hm' : ¬ big_tag_match ctx.globMatch sp.match_globs
          s.suppression_tags = true := hm
      constructor
      · intro _
        show s.cnt_active_suppressions
          = active_matching ctx
              (pre ++ { sp with state := SuppState.active } :: post)
              s.suppression_tags
        rw [active_matching_activate ctx sp pre post s.suppression_tags hen,
          hsch hd, if_neg hm']
        omega
      · intro a2 ha2
        replace ha2 : a2 ∈ s.actions.map
            (supp_start_action ctx { sp with state := SuppState.active }
              s.stop_running) := ha2
        have hlem := supp_start_actions_inv ctx sp pre post hen
          s.stop_running s.actions
          (fun a ha => ⟨fun hnd => (hact a ha).1 hd hnd, (hact a ha).2⟩)
          a2 ha2
        exact ⟨fun _ => hlem.1, hlem.2⟩

theorem supp_end_actions_inv (ctx : Ctx) (sp : Supp) (pre post : List Supp)
    (hsa : sp.state = SuppState.active) (l : List Action)
    (hl : ∀ a ∈ l,
      (a.state ≠ ActionState.disabled →
        a.cnt_active_suppressions
          = active_matching ctx (pre ++ sp :: post) a.suppression_tags)
      ∧ (a.state = ActionState.disabled → a.pid = 0)) :
    ∀ a2 ∈ l.map (supp_end_action ctx { sp with state := SuppState.enabled }),
      (a2.state ≠ ActionState.disabled →
        a2.cnt_active_suppressions
          = active_matching ctx
              (pre ++ { sp with state := SuppState.enabled } :: post)
              a2.suppression_tags)
      ∧ (a2.state = ActionState.disabled → a2.pid = 0) := by
  intro a2 ha2
  rcases List.mem_map.mp ha2 with ⟨a, ha, hfa⟩
  obtain ⟨hcnt, hpid⟩ := hl a ha
  obtain ⟨ftags, fpid, fdis, fdec, fid⟩ :=
    supp_end_action_fields ctx { sp with state := SuppState.enabled } a
  subst hfa
  by_cases hda : a.state = ActionState.disabled
  · rw [fid (Or.inl hda)]
    exact ⟨fun hnd => absurd hda hnd, hpid⟩
  · constructor
    · intro _
      rw [ftags]
      have hAM :=
        active_matching_deactivate ctx sp pre post a.suppression_tags hsa
      by_cases hm : big_tag_match ctx.globMatch sp.match_globs
          a.suppression_tags = true
      · rw [if_pos hm] at hAM
        have hApos : a.cnt_active_suppressions ≠ 0 := by
          rw [hcnt hda, hAM]; omega
        rw [fdec hda hm hApos, hcnt hda, hAM]
        omega
      · rw [if_neg hm] at hAM
        rw [fid (Or.inr (by simpa using hm)), hcnt hda, hAM]
        omega
    · intro hx
      exact absurd (fdis.mp hx) hda

theorem supp_end_sched_inv (ctx : Ctx) (sp : Supp) (pre post : List Supp)
    (hsa : sp.state = SuppState.active) (s : Schedule)
    (h : SchedInvPair ctx (pre ++ sp :: post) s) :
    SchedInvPair ctx (pre ++ { sp with state := SuppState.enabled } :: post)
      (supp_end_sched ctx { sp with state := SuppState.enabled } s) := by
  obtain ⟨hsch, hact⟩ := h
  unfold supp_end_sched
  by_cases hd : s.state = ScheduleState.disabled
  · rw [if_pos hd]
    refine ⟨fun hnd => absurd hd hnd, fun a ha => ?_⟩
    exact ⟨fun hnd _ => absurd hd hnd, (hact a ha).2⟩
  · rw [if_neg hd]
    dsimp only []
    have hAM :=
      active_matching_deactivate ctx sp pre post s.suppression_tags hsa
    by_cases hm : big_tag_match ctx.globMatch
        ({ sp with state := SuppState.enabled } : Supp).match_globs
        s.suppression_tags = true
    · rw [if_pos hm]
      have hm' : big_tag_match ctx.globMatch sp.match_globs
          s.suppression_tags = true := hm
      rw [if_pos hm'] at hAM
      obtain ⟨etags, eacts, -, -, -, -, -, -, -, -, -, edec⟩ :=
        supp_end_sched_m_facts s
      constructor
      · intro _
        have hcpos : s.cnt_active_suppressions ≠ 0 := by
          rw [hsch hd, hAM]; omega
        show (supp_end_sched_m s).cnt_active_suppressions
          = active_matching ctx
              (pre ++ { sp with state := SuppState.enabled } :: post)
              (supp_end_sched_m s).suppression_tags
        rw [edec hcpos, etags, hsch hd, hAM]
        omega
      · intro a2 ha2
        replace ha2 : a2 ∈ (supp_end_sched_m s).actions.map
            (supp_end_action ctx { sp with state := SuppState.enabled }) := ha2
        rw [eacts] at ha2
        have hlem := supp_end_actions_inv ctx sp pre post hsa s.actions
          (fun a ha => ⟨fun hnd => (hact a ha).1 hd hnd, (hact a ha).2⟩)
          a2 ha2
        exact ⟨fun _ => hlem.1, hlem.2⟩
    · rw [if_neg hm]
      have hm' : ¬ big_tag_match ctx.globMatch sp.match_globs
          s.suppression_tags = true := hm
      rw [if_neg hm'] at hAM
      constructor
      · intro _
        show s.cnt_active_suppressions
          = active_matching ctx
              (pre ++ { sp with state := SuppState.enabled } :: post)
              s.suppression_tags
        rw [hsch hd, hAM]
        omega
      · intro a2 ha2
        replace ha2 : a2 ∈ s.actions.map
            (supp_end_action ctx { sp with state := SuppState.enabled }) := ha2
        have hlem := supp_end_actions_inv ctx sp pre post hsa s.actions
          (fun a ha => ⟨fun hnd => (hact a ha).1 hd hnd, (hact a ha).2⟩)
          a2 ha2
        exact ⟨fun _ => hlem.1, hlem.2⟩

theorem suppression_start_inv (ctx : Ctx) (e : EventStim) (sp : Supp)
    (pre post : List Supp) (hen : sp.state ≠ SuppState.active)
    (scheds : List Schedule)
    (h : SchedsInv ctx (pre ++ sp :: post) scheds) :
    SchedsInv ctx (pre ++ (suppression_start ctx sp scheds).1 :: post)
      (suppression_start ctx sp scheds).2 := by
  unfold suppression_start
  by_cases hmg : sp.match_globs = []
  · rw [if_pos hmg]
    exact h
  · rw [if_neg hmg]
    dsimp only []
    intro s hs
    rcases List.mem_map.mp hs with ⟨s0, hs0, rfl⟩
    exact supp_start_sched_inv ctx sp pre post hen s0 (h s0 hs0)

theorem suppression_end_inv (ctx : Ctx) (e : EventStim) (sp : Supp)
    (pre post : List Supp) (hsa : sp.state = SuppState.active)
    (scheds : List Schedule)
    (h : SchedsInv ctx (pre ++ sp :: post) scheds) :
    SchedsInv ctx (pre ++ (suppression_end ctx sp scheds).1 :: post)
      (suppression_end ctx sp scheds).2 := by
  unfold suppression_end
  by_cases hmg : sp.match_globs = []
  · rw [if_pos hmg]
    exact h
  · rw [if_neg hmg]
    dsimp only []
    intro s hs
    rcases List.mem_map.mp hs with ⟨s0, hs0, rfl⟩
    exact supp_end_sched_inv ctx sp pre post hsa s0 (h s0 hs0)

theorem suppress_end_step_inv (ctx : Ctx) (e : EventStim)
    (R : Supp × List Schedule) (pre post : List Supp)
    (h : SchedsInv ctx (pre ++ R.1 :: post) R.2) :
    SchedsInv ctx
      (pre ++ (if R.1.stop = some e.name then
          if R.1.state = SuppState.active then suppression_end ctx R.1 R.2
          else R
        else R).1 :: post)
      (if R.1.stop = some e.name then
          if R.1.state = SuppState.active then suppression_end ctx R.1 R.2
          else R
        else R).2 := by
  by_cases h2 : R.1.stop = some e.name
  · rw [if_pos h2]
    by_cases h3 : R.1.state = SuppState.active
    · rw [if_pos h3]
      exact suppression_end_inv ctx e R.1 pre post h3 R.2 h
    · rw [if_neg h3]
      exact h
  · rw [if_neg h2]
    exact h

theorem suppress_one_inv (ctx : Ctx) (e : EventStim) (sp : Supp)
    (pre post : List Supp) (scheds : List Schedule)
    (h : SchedsInv ctx (pre ++ sp :: post) scheds) :
    SchedsInv ctx (pre ++ (suppress_one ctx e sp scheds).1 :: post)
      (suppress_one ctx e sp scheds).2 := by
  unfold suppress_one
  dsimp only []
  have h1 : SchedsInv ctx
      (pre ++ (if sp.start = some e.name then
          if sp.state = SuppState.enabled then suppression_start ctx sp scheds
          else (sp, scheds)
        else (sp, scheds)).1 :: post)
      (if sp.start = some e.name then
          if sp.state = SuppState.enabled then suppression_start ctx sp scheds
          else (sp, scheds)
        else (sp, scheds)).2 := by
    by_cases hst : sp.start = some e.name
    · rw [if_pos hst]
      by_cases hsen : sp.state = SuppState.enabled
      · rw [if_pos hsen]
        exact suppression_start_inv ctx e sp pre post
          (by rw [hsen]; simp) scheds h
      · rw [if_neg hsen]
        exact h
    · rw [if_neg hst]
      exact h
  exact suppress_end_step_inv ctx e _ pre post h1

theorem suppress_cb_inv (ctx : Ctx) (e : EventStim) :
    ∀ (supps : List Supp) (pre : List Supp) (scheds : List Schedule),
      SchedsInv ctx (pre ++ supps) scheds →
      SchedsInv ctx (pre ++ (suppress_cb ctx e supps scheds).1)
        (suppress_cb ctx e supps scheds).2
  | [], pre, scheds, h => h
  | sp :: rest, pre, scheds, h => by
    unfold suppress_cb
    by_cases hdis : sp.state = SuppState.disabled
    · rw [if_pos hdis]
      dsimp only []
      have hih := suppress_cb_inv ctx e rest (pre ++ [sp]) scheds
        (by rw [List.append_assoc]; simpa using h)
      rw [List.append_assoc] at hih
      simpa using hih
    · rw [if_neg hdis]
      dsimp only []
      have h2 := suppress_one_inv ctx e sp pre rest scheds h
      have hih := suppress_cb_inv ctx e rest
        (pre ++ [(suppress_one ctx e sp scheds).1])
        (suppress_one ctx e sp scheds).2
        (by rw [List.append_assoc]; simpa using h2)
      rw [List.append_assoc] at hih
      simpa using hih

theorem action_exec_of_disabled (ctx : Ctx) (t npid : Nat) (a : Action)
    (hda : a.state = ActionState.disabled) :
    (action_exec ctx t npid a).2 = a := by
  rcases action_exec_cases ctx t npid a with
    h | ⟨h, hs⟩ | ⟨h, hd, -⟩ | ⟨h, hd, -⟩
  · exact h
  · rw [hda] at hs
    simp at hs
  · exact absurd hda hd
  · exact absurd hda hd

theorem action_exec_aprop (ctx : Ctx) (t npid : Nat) (supps : List Supp)
    (a : Action)
    (h1 : a.state ≠ ActionState.disabled →
      a.cnt_active_suppressions = active_matching ctx supps a.suppression_tags)
    (h2 : a.state = ActionState.disabled → a.pid = 0) :
    ((action_exec ctx t npid a).2.state ≠ ActionState.disabled →
      (action_exec ctx t npid a).2.cnt_active_suppressions
        = active_matching ctx supps
            (action_exec ctx t npid a).2.suppression_tags)
    ∧ ((action_exec ctx t npid a).2.state = ActionState.disabled →
        (action_exec ctx t npid a).2.pid = 0) := by
  obtain ⟨ftags, fcnt, fdis⟩ := action_exec_inv_fields ctx t npid a
  constructor
  · intro hnd2
    by_cases hda : a.state = ActionState.disabled
    · rw [action_exec_of_disabled ctx t npid a hda] at hnd2
      exact absurd hda hnd2
    · rw [fcnt, ftags]
      exact h1 hda
  · intro hd2
    obtain ⟨had, hpid⟩ := fdis hd2
    rw [hpid]
    exact h2 had

theorem exec_actions_inv (ctx : Ctx) (t : Nat) (pids : String → Nat)
    (supps : List Supp) :
    ∀ (l : List Action),
      (∀ a ∈ l,
        (a.state ≠ ActionState.disabled →
          a.cnt_active_suppressions
            = active_matching ctx supps a.suppression_tags)
        ∧ (a.state = ActionState.disabled → a.pid = 0)) →
      ∀ a2 ∈ (exec_actions ctx t pids l).1,
        (a2.state ≠ ActionState.disabled →
          a2.cnt_active_suppressions
            = active_matching ctx supps a2.suppression_tags)
        ∧ (a2.state = ActionState.disabled → a2.pid = 0)
  | [], _, a2, ha2 => by
    simp [exec_actions] at ha2
  | a :: rest, h, a2, ha2 => by
    replace ha2 : a2 ∈ (action_exec ctx t (pids a.name) a).2
        :: (exec_actions ctx t pids rest).1 := ha2
    rcases List.mem_cons.mp ha2 with rfl | hmem
    · exact action_exec_aprop ctx t (pids a.name) supps a
        ((h a (List.mem_cons_self a rest)).1)
        ((h a (List.mem_cons_self a rest)).2)
    · exact exec_actions_inv ctx t pids supps rest
        (fun b hb => h b (List.mem_cons_of_mem a hb)) a2 hmem

theorem schedule_exec_inv (ctx : Ctx) (t : Nat) (pids : String → Nat)
    (supps : List Supp) (s : Schedule) (hnd : s.state ≠ ScheduleState.disabled)
    (h : SchedInvPair ctx supps s) :
    SchedInvPair ctx supps (schedule_exec ctx t pids s) := by
  obtain ⟨hsch, hact⟩ := h
  unfold schedule_exec
  rcases hmode : s.mode with _ | _ | _
  · dsimp only []
    rcases hacts : s.actions with _ | ⟨a, rest⟩
    · dsimp only []
      exact ⟨fun _ => hsch hnd, fun a ha => absurd ha (by simp)⟩
    · have hmemA : a ∈ s.actions := by
        rw [hacts]; exact List.mem_cons_self a rest
      have hmemR : ∀ b ∈ rest, b ∈ s.actions := fun b hb => by
        rw [hacts]; exact List.mem_cons_of_mem a hb
      have hhead := action_exec_aprop ctx t (pids a.name) supps a
        (fun hnda => (hact a hmemA).1 hnd hnda) ((hact a hmemA).2)
      dsimp only []
      split
      all_goals
        refine ⟨fun _ => hsch hnd, fun a2 ha2 => ?_⟩
        replace ha2 : a2 ∈ (action_exec ctx t (pids a.name) a).2 :: rest := ha2
        rcases List.mem_cons.mp ha2 with rfl | hm2
        · exact ⟨fun _ hnda => hhead.1 hnda, hhead.2⟩
        · exact ⟨fun _ hnda => (hact a2 (hmemR a2 hm2)).1 hnd hnda,
            (hact a2 (hmemR a2 hm2)).2⟩
  · have hall := exec_actions_inv ctx t pids supps s.actions
      (fun a ha => ⟨fun hnda => (hact a ha).1 hnd hnda, (hact a ha).2⟩)
    dsimp only []
    split
    all_goals
      refine ⟨fun _ => hsch hnd, fun a2 ha2 => ?_⟩
      replace ha2 : a2 ∈ (exec_actions ctx t pids s.actions).1 := ha2
      exact ⟨fun _ hnda => (hall a2 ha2).1 hnda, (hall a2 ha2).2⟩
  · exact ⟨fun hx => absurd rfl hx,
      fun a2 ha2 => ⟨fun hx _ => absurd rfl hx, (hact a2 ha2).2⟩⟩

theorem execute_sched_inv (ctx : Ctx) (e : EventStim) (t : Nat)
    (pids : String → Nat) (supps : List Supp) (s : Schedule)
    (h : SchedInvPair ctx supps s) :
    SchedInvPair ctx supps (execute_sched ctx e t pids s) := by
  obtain ⟨hsch, hact⟩ := h
  unfold execute_sched
  by_cases hd : s.state = ScheduleState.disabled
  · rw [if_pos hd]
    exact ⟨hsch, hact⟩
  · rw [if_neg hd]
    by_cases hst : s.start = some e.name
    · rw [if_pos hst]
      by_cases hsup : s.state = ScheduleState.suppressed
      · rw [if_pos hsup]
        exact ⟨fun _ => hsch hd,
          fun a ha => ⟨fun _ hnda => (hact a ha).1 hd hnda, (hact a ha).2⟩⟩
      · rw [if_neg hsup]
        by_cases hrun : s.state = ScheduleState.running
        · rw [if_pos hrun]
          exact ⟨fun _ => hsch hd,
            fun a ha => ⟨fun _ hnda => (hact a ha).1 hd hnda, (hact a ha).2⟩⟩
        · rw [if_neg hrun]
          dsimp only []
          have h1 : ∀ (cn : Nat),
              SchedInvPair ctx supps { s with cycle_number := cn } :=
            fun cn => ⟨fun _ => hsch hd,
              fun a ha => ⟨fun _ hnda => (hact a ha).1 hd hnda, (hact a ha).2⟩⟩
          have h2 := schedule_exec_inv ctx t pids supps
            { s with cycle_number :=
                if e.cycle_interval ≠ 0 then
                  t / e.cycle_interval * e.cycle_interval
                else 0 }
            hd (h1 _)
          generalize hgen : schedule_exec ctx t pids
            { s with cycle_number :=
                if e.cycle_interval ≠ 0 then
                  t / e.cycle_interval * e.cycle_interval
                else 0 } = s2 at h2 ⊢
          obtain ⟨h2s, h2a⟩ := h2
          split
          · exact ⟨fun hx => absurd rfl hx,
              fun a ha => ⟨fun hx _ => absurd rfl hx, (h2a a ha).2⟩⟩
          · exact ⟨h2s, h2a⟩
    · rw [if_neg hst]
      exact ⟨hsch, hact⟩

theorem execute_cb_inv (ctx : Ctx) (e : EventStim) (t : Nat)
    (pidFn : String → String → Nat) (supps : List Supp)
    (scheds : List Schedule) (h : SchedsInv ctx supps scheds) :
    SchedsInv ctx supps (execute_cb ctx e t pidFn scheds) := by
  intro s hs
  rcases List.mem_map.mp hs with ⟨s0, hs0, rfl⟩
  exact execute_sched_inv ctx e t (pidFn s0.name) supps s0 (h s0 hs0)

theorem fire_cb_inv (ctx : Ctx) (e : EventStim) (t : Nat)
    (pidFn : String → String → Nat) (st : MState) (h : SuppInv ctx st) :
    SuppInv ctx (fire_cb ctx e t pidFn st) := by
  have hcb := suppress_cb_inv ctx e st.supps [] st.schedules
    (by simpa using h)
  simp only [List.nil_append] at hcb
  exact execute_cb_inv ctx e t pidFn _ _ hcb

theorem reap_action_fields (t : Nat) (status : Int) (a : Action) :
    (reap_action t status a).cnt_active_suppressions = a.cnt_active_suppressions
    ∧ (reap_action t status a).suppression_tags = a.suppression_tags := by
  unfold reap_action
  dsimp only []
  split <;> exact ⟨rfl, rfl⟩

theorem cleanup_actions_pid (ctx : Ctx) (t : Nat) (pids : String → Nat)
    (pid : Nat) (status : Int) (execSucc : Bool) :
    ∀ (l : List Action),
      (∀ a ∈ l, a.state = ActionState.disabled → a.pid = 0) →
      ∀ l2, cleanup_actions ctx t pids pid status execSucc l = some l2 →
      ∀ a2 ∈ l2, a2.state = ActionState.disabled → a2.pid = 0
  | [], _, l2, heq => by simp [cleanup_actions] at heq
  | a :: rest, h, l2, heq => by
    by_cases hp : a.pid = pid
    · cases rest with
      | nil =>
        unfold cleanup_actions at heq
        rw [if_pos hp] at heq
        dsimp only [] at heq
        injection heq with heq2
        subst heq2
        intro a2 ha2 hd2
        rw [List.mem_singleton.mp ha2]
        exact (reap_action_enables t status a).2
      | cons b bs =>
        unfold cleanup_actions at heq
        rw [if_pos hp] at heq
        dsimp only [] at heq
        by_cases hx : execSucc = true
        · rw [if_pos hx] at heq
          injection heq with heq2
          subst heq2
          intro a2 ha2 hd2
          rcases List.mem_cons.mp ha2 with rfl | ha2
          · exact (reap_action_enables t status a).2
          rcases List.mem_cons.mp ha2 with rfl | ha2
          · obtain ⟨-, -, fdis⟩ := action_exec_inv_fields ctx t (pids b.name) b
            obtain ⟨hbd, hbp⟩ := fdis hd2
            rw [hbp]
            exact h b (by simp) hbd
          · exact h a2 (by simp [ha2]) hd2
        · rw [if_neg hx] at heq
          injection heq with heq2
          subst heq2
          intro a2 ha2 hd2
          rcases List.mem_cons.mp ha2 with rfl | ha2
          · exact (reap_action_enables t status a).2
          · exact h a2 (by simp [ha2]) hd2
    · unfold cleanup_actions at heq
      rw [if_neg hp] at heq
      cases hrec : cleanup_actions ctx t pids pid status execSucc rest with
      | none =>
        rw [hrec] at heq
        simp at heq
      | some rest2 =>
        rw [hrec] at heq
        dsimp only [] at heq
        injection heq with heq2
        subst heq2
        intro a2 ha2 hd2
        rcases List.mem_cons.mp ha2 with rfl | ha2
        · exact h a2 (List.mem_cons_self a2 rest) hd2
        · exact cleanup_actions_pid ctx t pids pid status execSucc rest
            (fun x hx => h x (List.mem_cons_of_mem a hx)) rest2 hrec a2 ha2 hd2

theorem cleanup_actions_inv (ctx : Ctx) (t : Nat) (pids : String → Nat)
    (pid : Nat) (status : Int) (execSucc : Bool) (supps : List Supp)
    (hpid : pid ≠ 0) :
    ∀ (l : List Action),
      (∀ a ∈ l,
        (a.state ≠ ActionState.disabled →
          a.cnt_active_suppressions
            = active_matching ctx supps a.suppression_tags)
        ∧ (a.state = ActionState.disabled → a.pid = 0)) →
      ∀ l2, cleanup_actions ctx t pids pid status execSucc l = some l2 →
      ∀ a2 ∈ l2,
        (a2.state ≠ ActionState.disabled →
          a2.cnt_active_suppressions
            = active_matching ctx supps a2.suppression_tags)
        ∧ (a2.state = ActionState.disabled → a2.pid = 0)
  | [], _, l2, heq => by simp [cleanup_actions] at heq
  | a :: rest, h, l2, heq => by
    by_cases hp : a.pid = pid
    · have hnda : a.state ≠ ActionState.disabled := fun hdd =>
        hpid (by rw [← hp]; exact (h a (List.mem_cons_self a rest)).2 hdd)
      have hreap :
          ((reap_action t status a).state ≠ ActionState.disabled →
            (reap_action t status a).cnt_active_suppressions
              = active_matching ctx supps
                  (reap_action t status a).suppression_tags)
          ∧ ((reap_action t status a).state = ActionState.disabled →
              (reap_action t status a).pid = 0) := by
        obtain ⟨rcnt, rtags⟩ := reap_action_fields t status a
        exact ⟨fun _ => by
            rw [rcnt, rtags]
            exact (h a (List.mem_cons_self a rest)).1 hnda,
          fun _ => (reap_action_enables t status a).2⟩
      cases rest with
      | nil =>
        unfold cleanup_actions at heq
        rw [if_pos hp] at heq
        dsimp only [] at heq
        injection heq with heq2
        subst heq2
        intro a2 ha2
        rw [List.mem_singleton.mp ha2]
        exact hreap
      | cons b bs =>
        unfold cleanup_actions at heq
        rw [if_pos hp] at heq
        dsimp only [] at heq
        by_cases hx : execSucc = true
        · rw [if_pos hx] at heq
          injection heq with heq2
          subst heq2
          intro a2 ha2
          rcases List.mem_cons.mp ha2 with rfl | ha2
          · exact hreap
          rcases List.mem_cons.mp ha2 with rfl | ha2
          · exact action_exec_aprop ctx t (pids b.name) supps b
              ((h b (by simp)).1) ((h b (by simp)).2)
          · exact h a2 (by simp [ha2])
        · rw [if_neg hx] at heq
          injection heq with heq2
          subst heq2
          intro a2 ha2
          rcases List.mem_cons.mp ha2 with rfl | ha2
          · exact hreap
          · exact h a2 (by simp [ha2])
    · unfold cleanup_actions at heq
      rw [if_neg hp] at heq
      cases hrec : cleanup_actions ctx t pids pid status execSucc rest with
      | none =>
        rw [hrec] at heq
        simp at heq
      | some rest2 =>
        rw [hrec] at heq
        dsimp only [] at heq
        injection heq with heq2
        subst heq2
        intro a2 ha2
        rcases List.mem_cons.mp ha2 with rfl | ha2
        · exact h a2 (List.mem_cons_self a2 rest)
        · exact cleanup_actions_inv ctx t pids pid status execSucc supps hpid
            rest (fun x hx => h x (List.mem_cons_of_mem a hx)) rest2 hrec a2 ha2

theorem cleanup_survey_fields (x : Schedule) :
    (cleanup_survey x).cnt_active_suppressions = x.cnt_active_suppressions
    ∧ (cleanup_survey x).suppression_tags = x.suppression_tags
    ∧ ((cleanup_survey x).state = ScheduleState.disabled
        ↔ x.state = ScheduleState.disabled) := by
  unfold cleanup_survey
  dsimp only []
  repeat' split
  all_goals refine ⟨rfl, rfl, ?_⟩
  all_goals constructor <;> intro hx <;> simp_all

theorem lmapd_cleanup_sched_inv (ctx : Ctx) (t : Nat) (pids : String → Nat)
    (pid : Nat) (status : Int) (supps : List Supp) (s s2 : Schedule)
    (hpid : pid ≠ 0) (h : SchedInvPair ctx supps s)
    (heq : lmapd_cleanup_sched ctx t pids pid status s = some s2) :
    SchedInvPair ctx supps s2 := by
  obtain ⟨hsch, hact⟩ := h
  unfold lmapd_cleanup_sched at heq
  dsimp only [] at heq
  cases hca : cleanup_actions ctx t pids pid status
      (s.mode == ExecMode.sequential
        && !(s.state == ScheduleState.suppressed) && !s.stop_running)
      s.actions with
  | none =>
    rw [hca] at heq
    simp at heq
  | some acts =>
    rw [hca] at heq
    dsimp only [] at heq
    injection heq with heq2
    subst heq2
    obtain ⟨fcnt, ftags, fdis⟩ := cleanup_survey_fields { s with actions := acts }
    by_cases hd : s.state = ScheduleState.disabled
    · have hpidcl := cleanup_actions_pid ctx t pids pid status _ s.actions
        (fun a ha => (hact a ha).2) acts hca
      refine ⟨fun hx => absurd (fdis.mpr hd) hx, fun a2 ha2 => ?_⟩
      have ha2' : a2 ∈ acts := by
        have hA := cleanup_survey_actions { s with actions := acts }
        rw [hA] at ha2
        exact ha2
      exact ⟨fun hx _ => absurd (fdis.mpr hd) hx, hpidcl a2 ha2'⟩
    · have hfull := cleanup_actions_inv ctx t pids pid status _ supps hpid
        s.actions
        (fun a ha => ⟨fun hnda => (hact a ha).1 hd hnda, (hact a ha).2⟩)
        acts hca
      refine ⟨fun _ => ?_, fun a2 ha2 => ?_⟩
      · rw [fcnt, ftags]
        exact hsch hd
      · have ha2' : a2 ∈ acts := by
          have hA := cleanup_survey_actions { s with actions := acts }
          rw [hA] at ha2
          exact ha2
        exact ⟨fun _ hnda => (hfull a2 ha2').1 hnda, (hfull a2 ha2').2⟩

theorem lmapd_cleanup_one_inv (ctx : Ctx) (t : Nat)
    (pidFn : String → String → Nat) (pid : Nat) (status : Int)
    (supps : List Supp) (hpid : pid ≠ 0) :
    ∀ (scheds : List Schedule), SchedsInv ctx supps scheds →
      SchedsInv ctx supps (lmapd_cleanup_one ctx t pidFn pid status scheds)
  | [], h => h
  | s :: rest, h => by
    unfold lmapd_cleanup_one
    cases hy : lmapd_cleanup_sched ctx t (pidFn s.name) pid status s with
    | some s2 =>
      intro x hx
      rcases List.mem_cons.mp hx with rfl | hx
      · exact lmapd_cleanup_sched_inv ctx t (pidFn s.name) pid status supps
          s x hpid (h s (List.mem_cons_self s rest)) hy
      · exact h x (List.mem_cons_of_mem s hx)
    | none =>
      intro x hx
      rcases List.mem_cons.mp hx with rfl | hx
      · exact h x (List.mem_cons_self x rest)
      · exact lmapd_cleanup_one_inv ctx t pidFn pid status supps hpid rest
          (fun y hy2 => h y (List.mem_cons_of_mem s hy2)) x hx

theorem step_run_inv (ctx : Ctx) (st : MState) (stp : Step)
    (h : SuppInv ctx st) : SuppInv ctx (step_run ctx st stp) := by
  cases stp with
  | fire e t pidFn => exact fire_cb_inv ctx e t pidFn st h
  | reap pid status t pidFn =>
    unfold step_run
    dsimp only []
    by_cases hp : pid = 0
    · rw [if_pos hp]
      exact h
    · rw [if_neg hp]
      exact lmapd_cleanup_one_inv ctx t pidFn pid status st.supps hp
        st.schedules h

theorem run_steps_inv (ctx : Ctx) :
    ∀ (tr : List Step) (st : MState), SuppInv ctx st →
      SuppInv ctx (run_steps ctx st tr)
  | [], _, h => h
  | stp :: rest, st, h =>
    run_steps_inv ctx rest (step_run ctx st stp) (step_run_inv ctx st stp h)

/-- C7, counterexample to the unqualified balance: from a state where
every counter matches (no active suppression), firing the immediate
start Event disables the schedule, and the subsequent suppression start
skips it (suppression_start continues over disabled schedules), leaving
its cnt_active_suppressions at 0 while one active Suppression matches
its suppression_tags. -/
theorem C7_counterexample :
    spec_supp_balance ctx0 st7
    ∧ ¬ spec_supp_balance ctx0 (run_steps ctx0 st7 tr7) := by
  constructor
  · decide
  · decide

/-- C7, amended: cnt_active_suppressions is a Nat in this model (the C
field is a non-negative counter), and the suppression balance restricted
to non-disabled Schedules, and to non-disabled Actions of non-disabled
Schedules (together with "disabled actions carry no child"), is an
invariant of the runner: it is preserved by every trace of Event
firings and child reaps. Disabled items are skipped by
suppression_start and suppression_end, so their counters can go stale,
which is exactly what SchedInvPair's guards exclude. -/
theorem C7_amended (ctx : Ctx) (st : MState) (tr : List Step)
    (h : SuppInv ctx st) : SuppInv ctx (run_steps ctx st tr) :=
  run_steps_inv ctx tr st h

/-- Witness: the amended invariant applied to the concrete C7 state and
trace. -/
theorem C7_amended_witness :
    SuppInv ctx0 st7 ∧ SuppInv ctx0 (run_steps ctx0 st7 tr7) :=
  ⟨by decide, C7_amended ctx0 st7 tr7 (by decide)⟩

end Lmap

theorem mem_append_singleton_erase (x y : List Char) (l : List (List Char)) :
    x ∈ (l ++ [y]).erase y ↔ x ∈ l := by
  by_cases hy : y ∈ l
  · rw [List.erase_append_left _ hy]
    constructor
    · intro hx
      rcases List.mem_append.mp hx with h | h
      · exact List.mem_of_mem_erase h
      · rw [List.mem_singleton.mp h]
        exact hy
    · intro hx
      by_cases hxy : x = y
      · exact List.mem_append.mpr (Or.inr (by simp [hxy]))
      · exact List.mem_append.mpr (Or.inl ((List.mem_erase_of_ne hxy).mpr hx))
  · rw [List.erase_append_right _ hy]
    simp

theorem suffix_eq_of_length {t₁ t₂ l : List Char} (h₁ : t₁ <:+ l)
    (h₂ : t₂ <:+ l) (hl : t₁.length = t₂.length) : t₁ = t₂ := by
  rw [List.suffix_iff_eq_drop] at h₁ h₂
  rw [h₁, h₂, hl]

theorem not_meta_suffix_data (p : List Char) :
    ¬ metaChars <:+ p ++ ['d', 'a', 't', 'a'] := by
  intro h
  have h1 : (['m', 'e', 't', 'a'] : List Char) <:+ p ++ ['d', 'a', 't', 'a'] :=
    List.IsSuffix.trans ⟨['.'], rfl⟩ h
  have h2 : (['d', 'a', 't', 'a'] : List Char) <:+ p ++ ['d', 'a', 't', 'a'] :=
    List.suffix_append p ['d', 'a', 't', 'a']
  have h3 := suffix_eq_of_length h1 h2 rfl
  simp at h3

theorem not_data_suffix_meta (p : List Char) :
    ¬ dataChars <:+ p ++ ['m', 'e', 't', 'a'] := by
  intro h
  have h1 : (['d', 'a', 't', 'a'] : List Char) <:+ p ++ ['m', 'e', 't', 'a'] :=
    List.IsSuffix.trans ⟨['.'], rfl⟩ h
  have h2 : (['m', 'e', 't', 'a'] : List Char) <:+ p ++ ['m', 'e', 't', 'a'] :=
    List.suffix_append p ['m', 'e', 't', 'a']
  have h3 := suffix_eq_of_length h1 h2 rfl
  simp at h3

theorem meta_decomp {m : List Char} (h : isMetaName m = true) :
    ∃ p, m = p ++ metaChars := by
  simp only [isMetaName, List.isSuffixOf_iff_suffix] at h
  obtain ⟨p, hp⟩ := h
  exact ⟨p, hp.symm⟩

theorem take_of_append_tail (p t : List Char) (ht : t.length = 5) :
    (p ++ t).take ((p ++ t).length - 4) = p ++ t.take 1 := by
  have hlen : (p ++ t).length - 4 = p.length + 1 := by
    rw [List.length_append, ht]
    omega
  rw [hlen]
  exact List.take_append 1

theorem dataNameOf_meta_decomp {m : List Char} (h : isMetaName m = true) :
    ∃ p, m = p ++ metaChars ∧ dataNameOf m = p ++ dataChars := by
  obtain ⟨p, rfl⟩ := meta_decomp h
  refine ⟨p, rfl, ?_⟩
  unfold dataNameOf
  rw [take_of_append_tail p metaChars rfl]
  simp [metaChars, dataChars]

theorem metaNameOf_dataNameOf {m : List Char} (h : isMetaName m = true) :
    metaNameOf (dataNameOf m) = m := by
  obtain ⟨p, rfl, hd⟩ := dataNameOf_meta_decomp h
  rw [hd]
  unfold metaNameOf
  rw [take_of_append_tail p dataChars rfl]
  simp [metaChars, dataChars]

theorem dataNameOf_not_meta {m : List Char} (h : isMetaName m = true) :
    isMetaName (dataNameOf m) = false := by
  obtain ⟨p, rfl, hd⟩ := dataNameOf_meta_decomp h
  rw [hd]
  cases hb : isMetaName (p ++ dataChars)
  · rfl
  · exfalso
    have hs : metaChars <:+ (p ++ ['.']) ++ ['d', 'a', 't', 'a'] := by
      have := (List.isSuffixOf_iff_suffix).mp hb
      simpa [dataChars, List.append_assoc] using this
    exact not_meta_suffix_data (p ++ ['.']) hs

theorem meta_not_data {m : List Char} (h : isMetaName m = true) :
    isDataName m = false := by
  obtain ⟨p, rfl⟩ := meta_decomp h
  cases hb : isDataName (p ++ metaChars)
  · rfl
  · exfalso
    have hs : dataChars <:+ (p ++ ['.']) ++ ['m', 'e', 't', 'a'] := by
      have := (List.isSuffixOf_iff_suffix).mp hb
      simpa [metaChars, List.append_assoc] using this
    exact not_data_suffix_meta (p ++ ['.']) hs

theorem moveScan_pairClosed (fail : List Char → Bool) (incAll : List FEntry) :
    ∀ (todo : List FEntry) (dest₀ d : List (List Char)),
      pairClosed dest₀ d → pairClosed dest₀ (moveScan fail incAll todo d)
  | [], _, d, hd => hd
  | ent :: rest, dest₀, d, hd => by
    unfold moveScan
    rcases hname : ent.name with _ | ⟨c, cs⟩
    · exact moveScan_pairClosed fail incAll rest dest₀ d hd
    · dsimp only []
      by_cases hdot : c = '.'
      · rw [if_pos hdot]
        exact moveScan_pairClosed fail incAll rest dest₀ d hd
      · rw [if_neg hdot]
        by_cases hmeta : isMetaName (c :: cs) = true
        · rw [if_pos hmeta]
          by_cases hreg : ent.reg = true
          · rw [if_pos hreg]
            cases hfd : incAll.find? (fun f => f.name == dataNameOf (c :: cs)) with
            | none => exact moveScan_pairClosed fail incAll rest dest₀ d hd
            | some fd =>
              dsimp only []
              by_cases hfr : fd.reg = true
              · rw [if_pos hfr]
                by_cases hf1 : fail (dataNameOf (c :: cs)) = true
                · rw [if_pos hf1]
                  exact moveScan_pairClosed fail incAll rest dest₀ d hd
                · rw [if_neg hf1]
                  by_cases hf2 : fail (c :: cs) = true
                  · rw [if_pos hf2]
                    intro x hx hx0
                    have hx' : x ∈ d :=
                      (mem_append_singleton_erase x (dataNameOf (c :: cs)) d).mp hx
                    obtain ⟨f1, f2⟩ := hd x hx' hx0
                    exact ⟨fun hm => (mem_append_singleton_erase _ _ d).mpr (f1 hm),
                      fun hm => (mem_append_singleton_erase _ _ d).mpr (f2 hm)⟩
                  · rw [if_neg hf2]
                    refine moveScan_pairClosed fail incAll rest dest₀ _ ?_
                    intro x hx hx0
                    rcases List.mem_append.mp hx with hx1 | hxM
                    · rcases List.mem_append.mp hx1 with hxd | hxD
                      · obtain ⟨f1, f2⟩ := hd x hxd hx0
                        exact ⟨fun hm => by simp [f1 hm],
                          fun hm => by simp [f2 hm]⟩
                      · rw [List.mem_singleton.mp hxD]
                        constructor
                        · intro hm
                          rw [dataNameOf_not_meta hmeta] at hm
                          exact absurd hm (by simp)
                        · intro _
                          rw [metaNameOf_dataNameOf hmeta]
                          simp
                    · rw [List.mem_singleton.mp hxM]
                      constructor
                      · intro _
                        simp
                      · intro hm
                        rw [meta_not_data hmeta] at hm
                        exact absurd hm (by simp)
              · rw [if_neg hfr]
                exact moveScan_pairClosed fail incAll rest dest₀ d hd
          · rw [if_neg hreg]
            exact moveScan_pairClosed fail incAll rest dest₀ d hd
        · rw [if_neg hmeta]
          exact moveScan_pairClosed fail incAll rest dest₀ d hd

theorem moveScanSnaps_noHalf (fail : List Char → Bool) (incAll : List FEntry) :
    ∀ (todo : List FEntry) (dest₀ d : List (List Char)),
      (∀ m, isMetaName m = true → m ∈ d → m ∉ dest₀ → dataNameOf m ∈ d) →
      ∀ dst ∈ moveScanSnaps fail incAll todo d,
        ∀ m, isMetaName m = true → m ∈ dst → m ∉ dest₀ → dataNameOf m ∈ dst
  | [], _, d, hd, dst, hdst => by
    rw [List.mem_singleton.mp hdst]
    exact hd
  | ent :: rest, dest₀, d, hd, dst, hdst => by
    rw [moveScanSnaps] at hdst
    rcases hname : ent.name with _ | ⟨c, cs⟩
    · rw [hname] at hdst
      rcases List.mem_cons.mp hdst with rfl | hdst
      · exact hd
      · exact moveScanSnaps_noHalf fail incAll rest dest₀ d hd dst hdst
    · rw [hname] at hdst
      dsimp only [] at hdst
      by_cases hdot : c = '.'
      · rw [if_pos hdot] at hdst
        rcases List.mem_cons.mp hdst with rfl | hdst
        · exact hd
        · exact moveScanSnaps_noHalf fail incAll rest dest₀ d hd dst hdst
      · rw [if_neg hdot] at hdst
        by_cases hmeta : isMetaName (c :: cs) = true
        · rw [if_pos hmeta] at hdst
          by_cases hreg : ent.reg = true
          · rw [if_pos hreg] at hdst
            cases hfd : incAll.find? (fun f => f.name == dataNameOf (c :: cs)) with
            | none =>
              rw [hfd] at hdst
              dsimp only [] at hdst
              rcases List.mem_cons.mp hdst with rfl | hdst
              · exact hd
              · exact moveScanSnaps_noHalf fail incAll rest dest₀ d hd dst hdst
            | some fd =>
              rw [hfd] at hdst
              dsimp only [] at hdst
              have hDmem : ∀ m, isMetaName m = true →
                  m ∈ d ++ [dataNameOf (c :: cs)] → m ∉ dest₀ →
                  dataNameOf m ∈ d ++ [dataNameOf (c :: cs)] := by
                intro m hm hmem hm0
                rcases List.mem_append.mp hmem with hmd | hmD
                · exact List.mem_append.mpr (Or.inl (hd m hm hmd hm0))
                · rw [List.mem_singleton.mp hmD] at hm
                  rw [dataNameOf_not_meta hmeta] at hm
                  exact absurd hm (by simp)
              by_cases hfr : fd.reg = true
              · rw [if_pos hfr] at hdst
                by_cases hf1 : fail (dataNameOf (c :: cs)) = true
                · rw [if_pos hf1] at hdst
                  rcases List.mem_cons.mp hdst with rfl | hdst
                  · exact hd
                  · exact moveScanSnaps_noHalf fail incAll rest dest₀ d hd
                      dst hdst
                · rw [if_neg hf1] at hdst
                  by_cases hf2 : fail (c :: cs) = true
                  · rw [if_pos hf2] at hdst
                    rcases List.mem_cons.mp hdst with rfl | hdst
                    · exact hd
                    rcases List.mem_cons.mp hdst with rfl | hdst
                    · exact hDmem
                    · rw [List.mem_singleton.mp hdst]
                      intro m hm hmem hm0
                      have hmd : m ∈ d :=
                        (mem_append_singleton_erase m (dataNameOf (c :: cs))
                          d).mp hmem
                      exact (mem_append_singleton_erase _ _ d).mpr
                        (hd m hm hmd hm0)
                  · rw [if_neg hf2] at hdst
                    rcases List.mem_cons.mp hdst with rfl | hdst
                    · exact hd
                    rcases List.mem_cons.mp hdst with rfl | hdst
                    · exact hDmem
                    · refine moveScanSnaps_noHalf fail incAll rest dest₀
                        (d ++ [dataNameOf (c :: cs)] ++ [c :: cs]) ?_ dst hdst
                      intro m hm hmem hm0
                      rcases List.mem_append.mp hmem with hm1 | hmM
                      · have := hDmem m hm hm1 hm0
                        exact List.mem_append.mpr (Or.inl this)
                      · rw [List.mem_singleton.mp hmM]
                        exact List.mem_append.mpr (Or.inl
                          (List.mem_append.mpr (Or.inr (by simp))))
              · rw [if_neg hfr] at hdst
                rcases List.mem_cons.mp hdst with rfl | hdst
                · exact hd
                · exact moveScanSnaps_noHalf fail incAll rest dest₀ d hd dst hdst
          · rw [if_neg hreg] at hdst
            rcases List.mem_cons.mp hdst with rfl | hdst
            · exact hd
            · exact moveScanSnaps_noHalf fail incAll rest dest₀ d hd dst hdst
        · rw [if_neg hmeta] at hdst
          rcases List.mem_cons.mp hdst with rfl | hdst
          · exact hd
          · exact moveScanSnaps_noHalf fail incAll rest dest₀ d hd dst hdst

/-- C2, counterexample to "the scan continues with the next pair" after
a failed link: when the meta link of the first pair fails, the code
rolls the data link back and then breaks out of the readdir loop
(workspace.c:380), so the second, fully linkable pair is never
promoted; the spec's continue-semantics would promote it. -/
theorem C2_counterexample :
    moveScan failC2 incC2 incC2 [] = []
    ∧ moveScanSpec failC2 incC2 incC2 [] = [bData, bMeta] := by
  constructor
  · rfl
  · rfl

/-- C2, amended: promotion is pair-atomic in the destination: every name
the scan adds to the destination directory (whatever the linkat failure
pattern) has its companion there too — a new "<base>.meta" comes with
"<base>.data" and a new "<base>.data" with "<base>.meta", because a
data link whose meta link fails is unlinked again (rollback). The
failure handling differs from the spec only in that a failed meta link
ends the scan (break) instead of continuing with the next pair, which
C2_counterexample exhibits. -/
theorem C2_amended (fail : List Char → Bool) (incAll todo : List FEntry)
    (dest₀ : List (List Char)) :
    pairClosed dest₀ (moveScan fail incAll todo dest₀) :=
  moveScan_pairClosed fail incAll todo dest₀ dest₀
    (fun _ hx hx0 => absurd hx hx0)

/-- Witness: with no link failures both pairs cross; the amended theorem
applied at "a.meta" yields its companion "a.data" in the destination. -/
theorem C2_amended_witness :
    aMeta ∈ moveScan failNone incC2 incC2 []
    ∧ dataNameOf aMeta ∈ moveScan failNone incC2 incC2 [] :=
  ⟨by decide,
   (C2_amended failNone incC2 incC2 [] aMeta (by decide) (by decide)).1
     (by decide)⟩

/-- C9: the data name of a pair is linked into the destination strictly
before its meta name, and a failed meta link unlinks the data again, so
no destination-directory state the scan ever produces contains a newly
promoted ".meta" name without its ".data" companion: a reporter
scanning the active queue for ".meta" entries never observes a
half-promoted pair. -/
theorem C9_data_before_meta (fail : List Char → Bool)
    (incAll todo : List FEntry) (dest₀ : List (List Char)) :
    ∀ dst ∈ moveScanSnaps fail incAll todo dest₀,
      ∀ m, isMetaName m = true → m ∈ dst → m ∉ dest₀ → dataNameOf m ∈ dst :=
  moveScanSnaps_noHalf fail incAll todo dest₀ dest₀
    (fun _ _ hm hnm => absurd hm hnm)

/-- Witness: the final snapshot of a failure-free scan of both pairs,
queried at "a.meta". -/
theorem C9_witness :
    [aData, aMeta, bData, bMeta] ∈ moveScanSnaps failNone incC2 incC2 []
    ∧ dataNameOf aMeta ∈ [aData, aMeta, bData, bMeta] :=
  ⟨by decide,
   C9_data_before_meta failNone incC2 incC2 [] [aData, aMeta, bData, bMeta]
     (by decide) aMeta (by decide) (by decide) (by decide)⟩
